import Mathlib

/-!
Verification of the mini-cp-python constraint-programming engine core.

This file shallowly embeds the parts of the repository needed to settle the
claims about it: the two state managers (`Trailer` and `Copier` from
`mini_cp/engine/state.py`), the reversible sparse set, the sparse-set domain
and the reified `IsLessOrEqual` constraint, the solver fix-point loop, the
`make_int_var` factory dispatch, the float-based division helpers of
`IntVarViewMul`, the `Sum` constraint constructor, and the depth-first search
driver.  Python objects become Lean structures, mutation becomes explicit
state passing, and raised exceptions become `Except` results.
-/

namespace MiniCPVerify

/-! ### Definitions -/


/-! ## State manager: the trail strategy (`Trailer` in state.py)

A reversible primitive (`Trail` / `TrailInt`) holds a value and the
`last_magic` counter.  The manager holds the stack of prior backup trails,
the current trail and the `magic` counter.  Primitives are identified by
their creation index into `cells`.  The value type is a parameter, as in the
generic Python `Trail`; `TrailInt` is the instance at `Int`. -/

structure TrailCell (V : Type) where
  v : V
  lastMagic : Int
  deriving Repr, DecidableEq

/-- State of a `Trailer` manager together with every reversible primitive it
has created (the Python objects point to the manager; here the manager state
carries the cells).  `current` holds the entries of the current backup trail
with the most recently pushed entry first; `prior` is the stack of saved
trails with the top first. -/
structure Trailer (V : Type) where
  cells : List (TrailCell V)
  prior : List (List (Nat × V))
  current : List (Nat × V)
  magic : Int
  deriving Repr, DecidableEq

/-- A fresh `Trailer` (constructor `Trailer.__init__`). -/
def Trailer.mk0 (V : Type) : Trailer V :=
  { cells := [], prior := [], current := [], magic := 0 }

/-- Embeds `make_state_ref` / `make_state_int`: a new cell is created with
`last_magic = magic - 1`. -/
def Trailer.makeState {V : Type} (t : Trailer V) (init : V) : Trailer V :=
  { t with cells := t.cells ++ [{ v := init, lastMagic := t.magic - 1 }] }

/-- Replaces the cell at index `i` (both fields). -/
def setCell {V : Type} : List (TrailCell V) → Nat → TrailCell V → List (TrailCell V)
  | [], _, _ => []
  | _ :: cs, 0, c => c :: cs
  | c0 :: cs, n + 1, c => c0 :: setCell cs n c

/-- Writes only the `v` field of the cell at index `i`, as
`_TrailStateEntry.restore` does (`self._trail._v = self._v`). -/
def setCellVal {V : Type} : List (TrailCell V) → Nat → V → List (TrailCell V)
  | [], _, _ => []
  | c0 :: cs, 0, v => { c0 with v := v } :: cs
  | c0 :: cs, n + 1, v => c0 :: setCellVal cs n v

/-- Embeds `_BackupTrail.restore`: entries are popped in LIFO order (the head
of the list is the most recent entry) and each one writes its saved value
back into its cell. -/
def applyEntries {V : Type} : List (Nat × V) → List (TrailCell V) → List (TrailCell V)
  | [], cells => cells
  | (i, v) :: rest, cells => applyEntries rest (setCellVal cells i v)

/-- Embeds `Trailer.get_level`: `len(self._prior) - 1`. -/
def Trailer.getLevel {V : Type} (t : Trailer V) : Int :=
  (t.prior.length : Int) - 1

/-- Embeds `Trailer.save_state`: push the current trail, start a fresh one,
increment `magic`. -/
def Trailer.saveState {V : Type} (t : Trailer V) : Trailer V :=
  { t with prior := t.current :: t.prior, current := [], magic := t.magic + 1 }

/-- Embeds `Trailer.restore_state`: restore the current trail in LIFO order,
pop the prior trail as current, increment `magic`.  On an empty `prior` the
Python deque `pop` would raise; that situation is outside every use in this
file, and the embedding then leaves `prior` empty. -/
def Trailer.restoreState {V : Type} (t : Trailer V) : Trailer V :=
  { cells := applyEntries t.current t.cells
    prior := t.prior.tail
    current := t.prior.headD []
    magic := t.magic + 1 }

/-- Embeds `Trail.set_value` for the cell at index `i`: when the new value
differs, `trail()` pushes the old value onto the current trail unless
`last_magic` already equals the manager magic, then the value (and
`last_magic`) is updated. -/
def Trailer.setValue {V : Type} [DecidableEq V] (t : Trailer V) (i : Nat) (v : V) :
    Trailer V :=
  match t.cells.get? i with
  | none => t
  | some c =>
    if v = c.v then t
    else
      { t with
        cells := setCell t.cells i { v := v, lastMagic := t.magic }
        current := if c.lastMagic ≠ t.magic then (i, c.v) :: t.current else t.current }

/-- Embeds `Trailer.restore_state_until`: restore while the level is above
the target.  The Python loop would not terminate (it raises once `prior` is
exhausted) for a target below -1, so the loop also stops when `prior` is
empty. -/
def Trailer.restoreUntil {V : Type} (t : Trailer V) (level : Int) : Trailer V :=
  if t.prior.isEmpty ∨ t.getLevel ≤ level then t
  else Trailer.restoreUntil t.restoreState level
termination_by t.prior.length
decreasing_by
  rename_i h
  rw [not_or] at h
  have hne : t.prior.length ≠ 0 := by
    intro hlen
    exact h.1 (by simpa [List.isEmpty_iff_length_eq_zero] using hlen)
  simp only [Trailer.restoreState, List.length_tail]
  omega

/-! ## Operation sequences over a state manager

The operations a client may perform on already-registered primitives:
writes (`set_value`, and `increment`/`decrement`, which are
`set_value(f(value()))` for `f` the successor/predecessor function) and
`save_state` / `restore_state`. -/

inductive SMOp (V : Type) where
  | set (i : Nat) (v : V)
  | modify (i : Nat) (f : V → V)
  | save
  | restore

/-- Runs one operation on a `Trailer`. -/
def Trailer.runOp {V : Type} [DecidableEq V] (t : Trailer V) : SMOp V → Trailer V
  | .set i v => t.setValue i v
  | .modify i f =>
    match t.cells.get? i with
    | none => t
    | some c => t.setValue i (f c.v)
  | .save => t.saveState
  | .restore => t.restoreState

/-- Runs a sequence of operations, first element first. -/
def Trailer.runOps {V : Type} [DecidableEq V] (ops : List (SMOp V)) (t : Trailer V) :
    Trailer V :=
  match ops with
  | [] => t
  | op :: rest => Trailer.runOps rest (t.runOp op)

/-- Properly matched operation sequences: every `save` is matched by a
`restore` in the sequence and vice versa, with correct nesting. -/
inductive Balanced {V : Type} : List (SMOp V) → Prop where
  | nil : Balanced []
  | set (i : Nat) (v : V) {rest : List (SMOp V)} :
      Balanced rest → Balanced (SMOp.set i v :: rest)
  | modify (i : Nat) (f : V → V) {rest : List (SMOp V)} :
      Balanced rest → Balanced (SMOp.modify i f :: rest)
  | nest {inner rest : List (SMOp V)} :
      Balanced inner → Balanced rest →
      Balanced (SMOp.save :: inner ++ SMOp.restore :: rest)

/-! ## Values and restore semantics of the trail -/

/-- Values of all registered primitives, in creation order. -/
def Trailer.vals {V : Type} (t : Trailer V) : List V :=
  t.cells.map (fun c => c.v)

/-- Value-level effect of restoring a list of trail entries (head applied
first, so the oldest entry wins on a repeated index). -/
def applyVals {V : Type} : List (Nat × V) → List V → List V
  | [], vs => vs
  | (i, v) :: rest, vs => applyVals rest (vs.set i v)

/-! ## Invariants of the trail strategy

`MagLe` says no primitive carries a magic stamp from the future; it holds for
every state reachable from a fresh `Trailer`.  `Covered` says every primitive
already stamped with the current magic has an entry in the current trail:
such a primitive was already trailed in this frame, so a further write must
not push a second entry. -/

def MagLe {V : Type} (t : Trailer V) : Prop :=
  ∀ c ∈ t.cells, c.lastMagic ≤ t.magic

def Covered {V : Type} (t : Trailer V) : Prop :=
  ∀ i c, t.cells.get? i = some c → c.lastMagic = t.magic → ∃ w, (i, w) ∈ t.current

/-- Relation between a state and a later state of the same frame: the prior
stack is untouched, magic has not decreased, restoring the current trail
recovers the same values, and no primitives were created. -/
def StepOk {V : Type} (t u : Trailer V) : Prop :=
  u.prior = t.prior ∧ t.magic ≤ u.magic ∧
  applyVals u.current u.vals = applyVals t.current t.vals ∧
  u.cells.length = t.cells.length

/-! ## `with_new_state` (claim C1)

The body closure is represented by the operations it performs on the state
manager together with whether it then raises an exception (an exception
raised part-way through a body is the same as a body whose operation list is
the prefix performed before the raise).  The Python `with_new_state` has no
try/finally: when the body raises, the exception propagates before
`restore_state_until` runs, so the result is `Except.error` carrying the
unrestored state. -/

def Trailer.withNewState {V : Type} [DecidableEq V] (t : Trailer V)
    (ops : List (SMOp V)) (raises : Bool) : Except (Trailer V) (Trailer V) :=
  let level := t.getLevel
  let t2 := Trailer.runOps ops t.saveState
  if raises then Except.error t2
  else Except.ok (t2.restoreUntil level)

/-! ## State manager: the copy strategy (`Copier` in state.py)

`save_state` snapshots the value of every registered primitive; restoring
writes the snapshot back.  The snapshot covers exactly the primitives
registered at the time of the save; the store can only grow. -/

structure Copier (V : Type) where
  store : List V
  prior : List (List V)
  deriving Repr, DecidableEq

def Copier.mk0 (V : Type) : Copier V := { store := [], prior := [] }

/-- Embeds `Copier.make_state_ref` / `make_state_int`. -/
def Copier.makeState {V : Type} (c : Copier V) (init : V) : Copier V :=
  { c with store := c.store ++ [init] }

def Copier.getLevel {V : Type} (c : Copier V) : Int :=
  (c.prior.length : Int) - 1

/-- Embeds `Copier.save_state`: `_Backup(self)` snapshots every storage. -/
def Copier.saveState {V : Type} (c : Copier V) : Copier V :=
  { c with prior := c.store :: c.prior }

/-- Restores a snapshot entry-by-entry into the store; entries beyond the
snapshot (primitives registered after the save) keep their values. -/
def restoreBackup {V : Type} : List V → List V → List V
  | [], store => store
  | _ :: _, [] => []
  | v :: vs, _ :: store => v :: restoreBackup vs store

/-- Embeds `Copier.restore_state`. -/
def Copier.restoreState {V : Type} (c : Copier V) : Copier V :=
  { store := restoreBackup (c.prior.headD []) c.store, prior := c.prior.tail }

/-- Embeds `Copy.set_value` (an unconditional write). -/
def Copier.setValue {V : Type} (c : Copier V) (i : Nat) (v : V) : Copier V :=
  { c with store := c.store.set i v }

def Copier.runOp {V : Type} (c : Copier V) : SMOp V → Copier V
  | .set i v => c.setValue i v
  | .modify i f =>
    match c.store.get? i with
    | none => c
    | some v => c.setValue i (f v)
  | .save => c.saveState
  | .restore => c.restoreState

def Copier.runOps {V : Type} (ops : List (SMOp V)) (c : Copier V) : Copier V :=
  match ops with
  | [] => c
  | op :: rest => Copier.runOps rest (c.runOp op)

def Copier.restoreUntil {V : Type} (c : Copier V) (level : Int) : Copier V :=
  if c.prior.isEmpty ∨ c.getLevel ≤ level then c
  else Copier.restoreUntil c.restoreState level
termination_by c.prior.length
decreasing_by
  rename_i h
  rw [not_or] at h
  have hne : c.prior.length ≠ 0 := by
    intro hlen
    exact h.1 (by simpa [List.isEmpty_iff_length_eq_zero] using hlen)
  simp only [Copier.restoreState, List.length_tail]
  omega

def Copier.withNewState {V : Type} (c : Copier V) (ops : List (SMOp V))
    (raises : Bool) : Except (Copier V) (Copier V) :=
  let level := c.getLevel
  let c2 := Copier.runOps ops c.saveState
  if raises then Except.error c2
  else Except.ok (c2.restoreUntil level)

/-! ## The per-frame trailing discipline

Within a frame during which no nested `save_state`/`restore_state` happens,
the magic counter is unchanged, so the `last_magic` guard in `Trail.trail`
admits at most one entry per primitive, recording the value the primitive
held when the frame began. -/

def isWriteOp {V : Type} : SMOp V → Bool
  | .set _ _ => true
  | .modify _ _ => true
  | .save => false
  | .restore => false

/-- Invariant of a frame opened at state `t0` (the state right after the
`save_state` that opened it, so `t0.current = []`) while only writes happen:
every trail entry records the value its primitive had at `t0`; every trailed
primitive is stamped with the current magic; un-stamped primitives are
untouched; and no primitive has two entries. -/
def FrameInv {V : Type} (t0 s : Trailer V) : Prop :=
  s.magic = t0.magic ∧
  s.cells.length = t0.cells.length ∧
  (∀ e ∈ s.current, ∃ c, t0.cells.get? e.1 = some c ∧ e.2 = c.v) ∧
  (∀ e ∈ s.current, ∃ c, s.cells.get? e.1 = some c ∧ c.lastMagic = s.magic) ∧
  (∀ i c c2, s.cells.get? i = some c → t0.cells.get? i = some c2 →
     c.lastMagic ≠ s.magic → c = c2) ∧
  (∀ i, s.current.countP (fun e => e.1 == i) ≤ 1)

def c1Start : Trailer Int := (Trailer.mk0 Int).makeState 0

def c1ErrState : Trailer Int :=
  { cells := [{ v := 5, lastMagic := 1 }], prior := [[]], current := [(0, 0)],
    magic := 1 }

def c2CexOps : List (SMOp Int) :=
  [SMOp.set 0 1, SMOp.save, SMOp.set 0 2, SMOp.restore, SMOp.set 0 3]

/-! ## Solver propagation queue and fix-point (`MiniCP` in solver.py, claim C3)

A constraint is represented by its two flags; the propagation behaviour of
`propagate()` is abstracted by a function giving, for a constraint and the
solver state it runs in, the effects it performs through the solver
(`schedule` via domain events, `set_active`) before returning or raising
Inconsistency.  Domain state itself is not needed for the queue discipline
the claim is about. -/

structure CstrFlags where
  active : Bool
  scheduled : Bool
  deriving Repr, DecidableEq

/-- Queue state of `MiniCP`: the flags of each constraint (identified by
index) and the FIFO propagation queue (head dequeued next; `schedule`
appends at the tail). -/
structure SolverQ where
  cstrs : List CstrFlags
  queue : List Nat
  deriving Repr, DecidableEq

def setScheduledFlag : List CstrFlags → Nat → Bool → List CstrFlags
  | [], _, _ => []
  | k :: ks, 0, b => { k with scheduled := b } :: ks
  | k :: ks, n + 1, b => k :: setScheduledFlag ks n b

def setActiveFlag : List CstrFlags → Nat → Bool → List CstrFlags
  | [], _, _ => []
  | k :: ks, 0, b => { k with active := b } :: ks
  | k :: ks, n + 1, b => k :: setActiveFlag ks n b

/-- Embeds `MiniCP.schedule`: enqueue only if active and not scheduled. -/
def SolverQ.schedule (s : SolverQ) (c : Nat) : SolverQ :=
  match s.cstrs.get? c with
  | none => s
  | some k =>
    if k.active = true ∧ k.scheduled = false then
      { cstrs := setScheduledFlag s.cstrs c true, queue := s.queue ++ [c] }
    else s

/-- Effects a `propagate()` body can have on the solver queue state: domain
events scheduling subscribed constraints, and `set_active`. -/
inductive PropEffect where
  | sched (c : Nat)
  | setActive (c : Nat) (b : Bool)

def SolverQ.applyEffect (s : SolverQ) : PropEffect → SolverQ
  | .sched c => s.schedule c
  | .setActive c b => { s with cstrs := setActiveFlag s.cstrs c b }

def SolverQ.applyEffects (s : SolverQ) (effs : List PropEffect) : SolverQ :=
  effs.foldl SolverQ.applyEffect s

/-- Runs `c.propagate()` from state `s1`: the effects `propImpl` reports are
applied through the solver; the `Bool` tells whether the body then raises
Inconsistency. -/
def propagateRun (propImpl : Nat → SolverQ → List PropEffect × Bool)
    (s1 : SolverQ) (c : Nat) : Except SolverQ SolverQ :=
  if (propImpl c s1).2 = true then Except.error (s1.applyEffects (propImpl c s1).1)
  else Except.ok (s1.applyEffects (propImpl c s1).1)

def propagateBody (propImpl : Nat → SolverQ → List PropEffect × Bool)
    (s1 : SolverQ) (c : Nat) : Except SolverQ SolverQ :=
  match s1.cstrs.get? c with
  | none => Except.ok s1
  | some k =>
    if k.active = true then propagateRun propImpl s1 c
    else Except.ok s1

/-- Embeds `MiniCP._propagate`: clear the scheduled flag, then if the
constraint is active run its `propagate()`. -/
def propagateStep (propImpl : Nat → SolverQ → List PropEffect × Bool)
    (s : SolverQ) (c : Nat) : Except SolverQ SolverQ :=
  propagateBody propImpl { s with cstrs := setScheduledFlag s.cstrs c false } c

/-- Embeds the `except InconsistencyException` handler of
`MiniCP.fix_point`: pop every queued constraint, clearing its scheduled
flag. -/
def drainQueue (s : SolverQ) : SolverQ :=
  { cstrs := s.queue.foldl (fun cs c => setScheduledFlag cs c false) s.cstrs
    queue := [] }

/-- Embeds the loop of `MiniCP.fix_point` (fuel-indexed: the Python loop may
not terminate for self-rescheduling propagators; `none` means the fuel ran
out).  On Inconsistency the queue is drained and the exception re-raised as
`Except.error`. -/
def fixPointLoop (propImpl : Nat → SolverQ → List PropEffect × Bool) :
    Nat → SolverQ → Option (Except SolverQ SolverQ)
  | 0, _ => none
  | fuel + 1, s =>
    match s.queue with
    | [] => some (Except.ok s)
    | c :: rest =>
      match propagateStep propImpl { s with queue := rest } c with
      | Except.ok s2 => fixPointLoop propImpl fuel s2
      | Except.error s2 => some (Except.error (drainQueue s2))

/-- The queue discipline: no duplicates, queued indices are in range, and a
constraint is flagged scheduled exactly while it sits in the queue. -/
def QInv (s : SolverQ) : Prop :=
  s.queue.Nodup ∧ (∀ c ∈ s.queue, c < s.cstrs.length) ∧
  (∀ i : Fin s.cstrs.length,
    ((s.cstrs.get i).scheduled = true ↔ (i : Nat) ∈ s.queue))

/-- The state carried by a fix-point outcome (normal or Inconsistency). -/
def exceptState (r : Except SolverQ SolverQ) : SolverQ :=
  match r with
  | .ok s => s
  | .error s => s

/-- Embeds `MiniCP.fix_point`: notify the fix-point listeners (whose effects
on the queue `notify` abstracts, and which can raise, e.g. the `Minimize`
bound assertion), then propagate until the queue is empty; any
Inconsistency drains the queue, clearing scheduled flags, and re-raises. -/
def fixPoint (propImpl : Nat → SolverQ → List PropEffect × Bool)
    (notify : SolverQ → List PropEffect × Bool) (fuel : Nat) (s : SolverQ) :
    Option (Except SolverQ SolverQ) :=
  let r := notify s
  let s1 := s.applyEffects r.1
  if r.2 then some (Except.error (drainQueue s1))
  else fixPointLoop propImpl fuel s1

def c3PropImpl : Nat → SolverQ → List PropEffect × Bool := fun c _ => ([], c == 0)

def c3Start : SolverQ :=
  { cstrs := [{ active := true, scheduled := true },
              { active := true, scheduled := true }], queue := [0, 1] }

def c3Result : Except SolverQ SolverQ :=
  Except.error { cstrs := [{ active := true, scheduled := false },
                           { active := true, scheduled := false }], queue := [] }

/-! ## `make_int_var` and `IntVarImpl.__init__` (factory.py / int_var.py, claim C5) -/

inductive InitError where
  | notImplemented
  | valueError
  deriving Repr, DecidableEq

def MAX_VALUE : Int := 2147483647

def MIN_VALUE : Int := -2147483648

/-- Bound checks at the end of `IntVarImpl.__init__`, then the creation of
the `SparseSetDomain(min, max)` (a created variable is represented by its
domain bounds). -/
def intVarBoundsCheck (mn mx : Int) : Except InitError (Int × Int) :=
  if mn = MIN_VALUE ∨ mx = MAX_VALUE then Except.error InitError.valueError
  else if mn > mx then Except.error InitError.valueError
  else Except.ok (mn, mx)

/-- Embeds the argument dispatch of `IntVarImpl.__init__`: exactly one of
the shapes values / n / (min, max); the values shape raises
`NotImplementedError`, a wrong combination raises `ValueError`. -/
def intVarImplInit (min max n : Option Int) (values : Option (List Int)) :
    Except InitError (Int × Int) :=
  if values.isSome ∧ n.isNone ∧ min.isNone ∧ max.isNone then
    Except.error InitError.notImplemented
  else if n.isSome ∧ min.isNone ∧ max.isNone ∧ values.isNone then
    intVarBoundsCheck 0 (n.getD 0 - 1)
  else if min.isSome ∧ max.isSome ∧ n.isNone ∧ values.isNone then
    intVarBoundsCheck (min.getD 0) (max.getD 0)
  else Except.error InitError.valueError

/-- Embeds `factory.make_int_var(cp, min, max, sz, values)`, which forwards
to `IntVarImpl(cp, min, max, sz, values)` unchanged. -/
def makeIntVar (min max sz : Option Int) (values : Option (List Int)) :
    Except InitError (Int × Int) :=
  intVarImplInit min max sz values

/-! ## `StateSparseSet` (state.py, claim C10)

The reversible `StateInt` fields (`_size`, `_min`, `_max`) are embedded as
plain values: the claims settled against this structure involve no
save/restore.  `_min`/`_max` are kept in shifted coordinates as in the
source. -/

inductive PyErr where
  | inconsistency
  | valueError
  deriving Repr, DecidableEq

structure SSparseSet where
  n : Nat
  ofs : Int
  size : Nat
  minv : Int
  maxv : Int
  values : List Nat
  indices : List Nat
  deriving Repr, DecidableEq

/-- Embeds the `StateSparseSet` constructor: the full set
{ofs, ..., ofs+n-1}. -/
def mkSparseSet (n : Nat) (ofs : Int) : SSparseSet :=
  { n := n, ofs := ofs, size := n, minv := 0, maxv := (n : Int) - 1,
    values := List.range n, indices := List.range n }

def SSparseSet.isEmpty (s : SSparseSet) : Bool :=
  s.size == 0

/-- Embeds `StateSparseSet.min`, which raises `ValueError` on an empty
set. -/
def SSparseSet.minE (s : SSparseSet) : Except PyErr Int :=
  if s.isEmpty then Except.error PyErr.valueError
  else Except.ok (s.minv + s.ofs)

/-- Embeds `StateSparseSet.max`, which raises `ValueError` on an empty
set. -/
def SSparseSet.maxE (s : SSparseSet) : Except PyErr Int :=
  if s.isEmpty then Except.error PyErr.valueError
  else Except.ok (s.maxv + s.ofs)

/-- Embeds `_internal_contains` (shifted coordinates). -/
def SSparseSet.internalContains (s : SSparseSet) (val : Int) : Bool :=
  if val < 0 ∨ val ≥ (s.n : Int) then false
  else s.indices.getD val.toNat 0 < s.size

/-- Embeds `contains`. -/
def SSparseSet.contains (s : SSparseSet) (val : Int) : Bool :=
  let v := val - s.ofs
  if v < 0 ∨ v ≥ (s.n : Int) then false
  else s.indices.getD v.toNat 0 < s.size

/-- Embeds `_exchange_positions`. -/
def SSparseSet.exchangePositions (s : SSparseSet) (val1 val2 : Nat) : SSparseSet :=
  let i1 := s.indices.getD val1 0
  let i2 := s.indices.getD val2 0
  { s with values := (s.values.set i1 val2).set i2 val1,
           indices := (s.indices.set val1 i2).set val2 i1 }

/-- The scan of `_update_max_val_removed`: first present value from `v`
going down to `lo` (the fuel bounds the loop; `n + 1` always suffices). -/
def findPresentDown (s : SSparseSet) : Nat → Int → Int → Option Int
  | 0, _, _ => none
  | fuel + 1, v, lo =>
    if v < lo then none
    else if s.internalContains v then some v
    else findPresentDown s fuel (v - 1) lo

def findPresentUp (s : SSparseSet) : Nat → Int → Int → Option Int
  | 0, _, _ => none
  | fuel + 1, v, hi =>
    if v > hi then none
    else if s.internalContains v then some v
    else findPresentUp s fuel (v + 1) hi

/-- Embeds `_update_max_val_removed`: when the removed value was the
maximum, scan inward for the new maximum (if the loop finds none, `_max` is
left as is). -/
def SSparseSet.updateMaxValRemoved (s : SSparseSet) (val : Int) : SSparseSet :=
  if ¬s.isEmpty ∧ s.maxv = val then
    match findPresentDown s (s.n + 1) (val - 1) s.minv with
    | some v => { s with maxv := v }
    | none => s
  else s

/-- Embeds `_update_min_val_removed`. -/
def SSparseSet.updateMinValRemoved (s : SSparseSet) (val : Int) : SSparseSet :=
  if ¬s.isEmpty ∧ s.minv = val then
    match findPresentUp s (s.n + 1) (val + 1) s.maxv with
    | some v => { s with minv := v }
    | none => s
  else s

def SSparseSet.updateBoundsValRemoved (s : SSparseSet) (val : Int) : SSparseSet :=
  (s.updateMaxValRemoved val).updateMinValRemoved val

/-- Embeds `remove`: swap with the last present element, decrement the
size, update the bounds; returns whether the value was present. -/
def SSparseSet.remove (s : SSparseSet) (val : Int) : SSparseSet × Bool :=
  if ¬s.contains val then (s, false)
  else
    let v := (val - s.ofs).toNat
    let s1 := s.exchangePositions v (s.values.getD (s.size - 1) 0)
    let s2 : SSparseSet := { s1 with size := s1.size - 1 }
    (s2.updateBoundsValRemoved (v : Int), true)

/-- Embeds `remove_all`. -/
def SSparseSet.removeAll (s : SSparseSet) : SSparseSet :=
  { s with size := 0 }

/-- Embeds `remove_all_but` (the source asserts `contains v`; the embedding
returns the set unchanged in that unreachable case). -/
def SSparseSet.removeAllBut (s : SSparseSet) (v : Int) : SSparseSet :=
  if ¬s.contains v then s
  else
    let vv := (v - s.ofs).toNat
    let val := s.values.getD 0 0
    let index := s.indices.getD vv 0
    { s with indices := (s.indices.set vv 0).set val index,
             values := (s.values.set 0 vv).set index val,
             minv := (vv : Int), maxv := (vv : Int), size := 1 }

/-- Iterated `remove` over an ascending range (`for v in range(a, b)`). -/
def removeAsc : SSparseSet → Int → Nat → SSparseSet
  | s, _, 0 => s
  | s, v, k + 1 => removeAsc (s.remove v).1 (v + 1) k

/-- Iterated `remove` over a descending range (`for v in range(a, b, -1)`). -/
def removeDesc : SSparseSet → Int → Nat → SSparseSet
  | s, _, 0 => s
  | s, v, k + 1 => removeDesc (s.remove v).1 (v - 1) k

/-- Embeds `remove_below`; note the source first calls `self.max()`, which
raises `ValueError` on an empty set. -/
def SSparseSet.removeBelow (s : SSparseSet) (value : Int) :
    Except PyErr SSparseSet := do
  let mx ← s.maxE
  if mx < value then pure s.removeAll
  else do
    let mn ← s.minE
    pure (removeAsc s mn (value - mn).toNat)

/-- Embeds `remove_above`; the source first calls `self.min()`. -/
def SSparseSet.removeAbove (s : SSparseSet) (value : Int) :
    Except PyErr SSparseSet := do
  let mn ← s.minE
  if mn > value then pure s.removeAll
  else do
    let mx ← s.maxE
    pure (removeDesc s mx (mx - value).toNat)

/-- Mutating operations a client can run on a sparse set (the total ones;
claim C10 is about `min`/`max` after such histories). -/
inductive SetOp where
  | remove (v : Int)
  | removeAll
  | removeAllBut (v : Int)

def runSetOps : List SetOp → SSparseSet → SSparseSet
  | [], s => s
  | op :: rest, s =>
    runSetOps rest (match op with
      | .remove v => (s.remove v).1
      | .removeAll => s.removeAll
      | .removeAllBut v => s.removeAllBut v)

/-! ## `SparseSetDomain` (domain.py) and the reified constraints (claim C7)

The domain listener of `IntVarImpl` raises Inconsistency on `empty()`; its
other callbacks only schedule subscribed constraints into the solver queue,
which does not affect the domain values or the active flag the claim is
about, so they are not tracked here. -/

structure SparseSetDomain where
  domain : SSparseSet
  deriving Repr, DecidableEq

/-- Embeds the `SparseSetDomain` constructor:
`StateSparseSet(sm, max - min + 1, min)`. -/
def SparseSetDomain.mk0 (mn mx : Int) : SparseSetDomain :=
  { domain := mkSparseSet (mx - mn + 1).toNat mn }

def SparseSetDomain.minE (d : SparseSetDomain) : Except PyErr Int :=
  d.domain.minE

def SparseSetDomain.maxE (d : SparseSetDomain) : Except PyErr Int :=
  d.domain.maxE

def SparseSetDomain.size (d : SparseSetDomain) : Nat :=
  d.domain.size

def SparseSetDomain.contains (d : SparseSetDomain) (v : Int) : Bool :=
  d.domain.contains v

def SparseSetDomain.isSingleton (d : SparseSetDomain) : Bool :=
  d.domain.size == 1

/-- Embeds `SparseSetDomain.remove` with the `IntVarImpl` listener: the
`empty()` callback raises Inconsistency. -/
def SparseSetDomain.remove (d : SparseSetDomain) (v : Int) :
    Except PyErr SparseSetDomain :=
  if d.domain.contains v then
    let s2 := (d.domain.remove v).1
    if s2.size = 0 then Except.error PyErr.inconsistency
    else Except.ok { domain := s2 }
  else Except.ok d

/-- Embeds `SparseSetDomain.remove_all_but` with the `IntVarImpl` listener
(`v` absent empties the domain and `empty()` raises). -/
def SparseSetDomain.removeAllBut (d : SparseSetDomain) (v : Int) :
    Except PyErr SparseSetDomain :=
  if d.domain.contains v then
    if d.domain.size ≠ 1 then
      let s2 := d.domain.removeAllBut v
      if s2.size = 0 then Except.error PyErr.inconsistency
      else Except.ok { domain := s2 }
    else Except.ok d
  else Except.error PyErr.inconsistency

/-- Embeds `SparseSetDomain.remove_below` with the `IntVarImpl` listener. -/
def SparseSetDomain.removeBelow (d : SparseSetDomain) (value : Int) :
    Except PyErr SparseSetDomain := do
  let mn ← d.domain.minE
  if mn < value then do
    let s2 ← d.domain.removeBelow value
    if s2.size = 0 then Except.error PyErr.inconsistency
    else Except.ok { domain := s2 }
  else Except.ok d

/-- Embeds `SparseSetDomain.remove_above` with the `IntVarImpl` listener. -/
def SparseSetDomain.removeAbove (d : SparseSetDomain) (value : Int) :
    Except PyErr SparseSetDomain := do
  let mx ← d.domain.maxE
  if mx > value then do
    let s2 ← d.domain.removeAbove value
    if s2.size = 0 then Except.error PyErr.inconsistency
    else Except.ok { domain := s2 }
  else Except.ok d

/-- Embeds `IntVarImpl.fix` (delegates to `remove_all_but`). -/
def SparseSetDomain.fixVal (d : SparseSetDomain) (v : Int) :
    Except PyErr SparseSetDomain :=
  d.removeAllBut v

/-- Embeds `BoolVarImpl.is_true`: `min() == 1`. -/
def SparseSetDomain.isTrueB (d : SparseSetDomain) : Except PyErr Bool := do
  let m ← d.minE
  pure (m == 1)

/-- Embeds `BoolVarImpl.is_false`: `max() == 0`. -/
def SparseSetDomain.isFalseB (d : SparseSetDomain) : Except PyErr Bool := do
  let m ← d.maxE
  pure (m == 0)

/-- State of an `IsLessOrEqual` constraint: the boolean variable, the
integer variable (each represented by its domain), the constant, the
reversible active flag (true at construction) and whether `post` took the
callback-registering branch. -/
structure IsLessOrEqualC where
  b : SparseSetDomain
  x : SparseSetDomain
  v : Int
  active : Bool
  registered : Bool
  deriving Repr, DecidableEq

/-- Embeds `IsLessOrEqual.post` (constraint.py): the four entailment cases
prune or fix, but none of them calls `set_active(False)` — the source only
carries comments saying the constraint \"should deactivate\". -/
def IsLessOrEqualC.post (st : IsLessOrEqualC) : Except PyErr IsLessOrEqualC := do
  let bTrue ← st.b.isTrueB
  if bTrue then do
    let x2 ← st.x.removeAbove st.v
    pure { st with x := x2 }
  else do
    let bFalse ← st.b.isFalseB
    if bFalse then do
      let x2 ← st.x.removeBelow (st.v + 1)
      pure { st with x := x2 }
    else do
      let mx ← st.x.maxE
      if mx ≤ st.v then do
        let b2 ← st.b.fixVal 1
        pure { st with b := b2 }
      else do
        let mn ← st.x.minE
        if mn > st.v then do
          let b2 ← st.b.fixVal 0
          pure { st with b := b2 }
        else
          pure { st with registered := true }

/-- State of an `IsEqual` constraint. -/
structure IsEqualC where
  b : SparseSetDomain
  x : SparseSetDomain
  v : Int
  active : Bool
  deriving Repr, DecidableEq

/-- Embeds `IsEqual.propagate` (constraint.py), which deactivates itself in
every entailed case via `set_active(False)`. -/
def IsEqualC.propagate (st : IsEqualC) : Except PyErr IsEqualC := do
  let bTrue ← st.b.isTrueB
  if bTrue then do
    let x2 ← st.x.fixVal st.v
    pure { st with x := x2, active := false }
  else do
    let bFalse ← st.b.isFalseB
    if bFalse then do
      let x2 ← st.x.remove st.v
      pure { st with x := x2, active := false }
    else if ¬st.x.contains st.v then do
      let b2 ← st.b.fixVal 0
      pure { st with b := b2, active := false }
    else if st.x.isSingleton then do
      let b2 ← st.b.fixVal 1
      pure { st with b := b2, active := false }
    else
      pure st

def exceptOk? {e a : Type} : Except e a → Option a
  | .ok v => some v
  | .error _ => none

/-- The boolean domain {0, 1} fixed to true, as built by
`make_bool_var` followed by `fix(v=1)`. -/
def c7BTrue : Except PyErr SparseSetDomain :=
  (SparseSetDomain.mk0 0 1).fixVal 1

def c7PostInput : Option IsLessOrEqualC :=
  (exceptOk? c7BTrue).map (fun b =>
    { b := b, x := SparseSetDomain.mk0 (-4) 7, v := 3,
      active := true, registered := false })

def c7PostResult : Option IsLessOrEqualC :=
  c7PostInput.bind (fun st => exceptOk? st.post)

def c7IsEqualResult : Option IsEqualC :=
  (exceptOk? c7BTrue).bind (fun b =>
    exceptOk? (IsEqualC.propagate
      { b := b, x := SparseSetDomain.mk0 (-4) 7, v := 3, active := true }))

/-! ## The `Sum` constraint constructor (constraint.py, claim C4)

A variable is represented by its (min, max) bounds, which is all the
constructor reads.  `Sum(x, y)` appends `factory.minus(y)`, an
`IntVarViewOpposite` whose constructor performs no checks; `Sum(x, v=c)`
appends `factory.make_int_var(cp, -c, -c)`, which runs the `IntVarImpl`
bound checks. -/

/-- Embeds `IntVarViewOpposite` bounds (`factory.minus(y)`). -/
def opposite (b : Int × Int) : Int × Int := (-b.2, -b.1)

/-- Embeds `Sum.__init__`, returning the bounds of the extended term list
`self._x`.  The constructor performs no bound-sum overflow check. -/
def sumInit (x : List (Int × Int)) (y : Option (Int × Int)) (v : Option Int) :
    Except InitError (List (Int × Int)) :=
  match y, v with
  | some yb, none => Except.ok (x ++ [opposite yb])
  | none, some vc => do
    let b ← intVarImplInit (some (-vc)) (some (-vc)) none none
    pure (x ++ [b])
  | _, _ => Except.error InitError.valueError

/-- Embeds the overflow check of `factory.sum_var` (the only place a
bound-sum check exists): sums the minima and maxima and raises
OverflowError when either leaves the 32-bit signed range. -/
def sumVarCheck (x : List (Int × Int)) : Option (Int × Int) :=
  let sumMin := (x.map (fun b => b.1)).foldl (· + ·) 0
  let sumMax := (x.map (fun b => b.2)).foldl (· + ·) 0
  if sumMin < MIN_VALUE ∨ sumMax > MAX_VALUE then none
  else some (sumMin, sumMax)

def c4Terms : List (Int × Int) := [(0, 2147483646), (0, 2147483646)]

/-! ## `IntVarViewMul` float division helpers (int_var.py, claim C6)

`_floor_div` and `_ceil_div` compute with Python floats (IEEE-754 binary64).
A float value is modelled exactly as a dyadic rational `m / 2^k`, and every
arithmetic operation as the exact rational result rounded to 53 significant
bits with round-to-nearest, ties-to-even.  For the operand magnitudes
reachable here (32-bit values and their quotients) results stay far inside
the normal binary64 range, where this model coincides with IEEE-754
semantics. -/

/-- A dyadic rational `m / 2^k`: the exact value of a binary64 float. -/
structure Dy where
  m : Int
  k : Nat
  deriving Repr, DecidableEq

/-- Round-half-even of the fraction n/d (d > 0) to an integer. -/
def roundMantissa (n d : Nat) : Nat :=
  let a := n / d
  let r := n % d
  if 2 * r < d then a
  else if d < 2 * r then a + 1
  else if a % 2 = 0 then a else a + 1

/-- Smallest scale `j ≥ k` with `n * 2^j ≥ d` (fuel-bounded search). -/
def findScale (n d : Nat) : Nat → Nat → Nat
  | k, 0 => k
  | k, fuel + 1 => if d ≤ n * 2 ^ k then k else findScale n d (k + 1) fuel

/-- Fuel-bounded base-2 logarithm (floor); `fuel = 200` covers every value
arising here. -/
def natLog2F : Nat → Nat → Nat
  | 0, _ => 0
  | fuel + 1, n => if 2 ≤ n then natLog2F fuel (n / 2) + 1 else 0

/-- Rounds the positive rational n/d (n, d > 0) to the nearest binary64
value, ties to even: find the binade `2^e ≤ n/d < 2^(e+1)` and round the
scaled mantissa to 53 bits. -/
def rnearPos (n d : Nat) : Dy :=
  if d ≤ n then
    let e := natLog2F 200 (n / d)
    if e ≤ 52 then { m := (roundMantissa (n * 2 ^ (52 - e)) d : Int), k := 52 - e }
    else { m := (roundMantissa n (d * 2 ^ (e - 52)) : Int) * 2 ^ (e - 52), k := 0 }
  else
    let k := findScale n d 1 1200
    { m := (roundMantissa (n * 2 ^ (52 + k)) d : Int), k := 52 + k }

/-- Rounds the rational num/den (den > 0) to the nearest binary64 value. -/
def rnearFrac (num : Int) (den : Nat) : Dy :=
  if num = 0 then { m := 0, k := 0 }
  else if 0 < num then rnearPos num.toNat den
  else
    let r := rnearPos (-num).toNat den
    { m := -r.m, k := r.k }

/-- Float division of two machine integers. -/
def fdivD (a b : Int) : Dy :=
  rnearFrac (if b < 0 then -a else a) b.natAbs

/-- Float multiplication of a float by a machine integer (`q * b`). -/
def fmulD (x : Dy) (b : Int) : Dy :=
  rnearFrac (x.m * b) (2 ^ x.k)

/-- Float addition of a machine integer to a float (`q + 1`, `q - 1`). -/
def faddD (x : Dy) (c : Int) : Dy :=
  rnearFrac (x.m + c * 2 ^ x.k) (2 ^ x.k)

/-- The Python float comparison `q * b == a` (exact numeric equality). -/
def dyEqInt (x : Dy) (a : Int) : Bool :=
  x.m == a * 2 ^ x.k

/-- Python `int()` on a float: truncation toward zero (exact). -/
def truncDy (x : Dy) : Int :=
  if 0 ≤ x.m then ((x.m.toNat / 2 ^ x.k : Nat) : Int)
  else -(((-x.m).toNat / 2 ^ x.k : Nat) : Int)

/-- Embeds `IntVarViewMul._floor_div` (int_var.py): `q = a / b` in float
arithmetic, the float test `q * b != a`, and `int(q - 1)` / `int(q)`. -/
def pyFloorDiv (a b : Int) : Int :=
  let q := fdivD a b
  if a < 0 ∧ ¬dyEqInt (fmulD q b) a then truncDy (faddD q (-1))
  else truncDy q

/-- Embeds `IntVarViewMul._ceil_div`. -/
def pyCeilDiv (a b : Int) : Int :=
  let q := fdivD a b
  if 0 < a ∧ ¬dyEqInt (fmulD q b) a then truncDy (faddD q 1)
  else truncDy q

/-- Embeds the argument `IntVarViewMul.remove_below(v)` passes to
`self._x.remove_below` — `self._ceil_div(v, self._a)`. -/
def viewMulRemoveBelowArg (a v : Int) : Int := pyCeilDiv v a

/-- Embeds the argument `IntVarViewMul.remove_above(v)` passes to
`self._x.remove_above` — `self._floor_div(v, self._a)`. -/
def viewMulRemoveAboveArg (a v : Int) : Int := pyFloorDiv v a

/-- `c` is the exact mathematical ceiling of `a / b` (for `b > 0`): the
least integer `c` with `b * c ≥ a`. -/
def isCeilOfDiv (c a b : Int) : Prop := a ≤ b * c ∧ b * (c - 1) < a

/-- `f` is the exact mathematical floor of `a / b` (for `b > 0`): the
greatest integer `f` with `b * f ≤ a`. -/
def isFloorOfDiv (f a b : Int) : Prop := b * f ≤ a ∧ a < b * (f + 1)

/-! ## `DFSearch` (search.py, claims C8 and C9)

The solver state a search runs over is abstracted by a type `σ`; the
branching closure maps the current state to the ordered alternatives, each
an action producing the child state or raising Inconsistency; the branching
itself can also raise.  Backtracking needs no explicit restore in the pure
embedding: the parent keeps using its own `σ`.  The Python
`with_new_state`/restore interplay (claim C1) is orthogonal: the statistics
object is threaded explicitly exactly as the source mutates it.  Listener
notifications carry no statistics effects and are omitted; the objective
`tighten` installed by `optimize` acts through the solver state, which `σ`
and the branching encapsulate. -/

structure SearchStatistics where
  nFailures : Nat
  nNodes : Nat
  nSolutions : Nat
  completed : Bool
  deriving Repr, DecidableEq

def SearchStatistics.init : SearchStatistics :=
  { nFailures := 0, nNodes := 0, nSolutions := 0, completed := false }

inductive SearchSignal where
  | stop
  | inconsistent
  deriving Repr, DecidableEq

/-- Statistics plus the `_curr_node_id_id` counter. -/
structure DFSState where
  stats : SearchStatistics
  currNodeId : Nat
  deriving Repr, DecidableEq

/-- Embeds `DFSearch._dfs` and its per-child callback (fuel-indexed; `none`
means the fuel ran out).  First check the limit (raise StopSearch), call
the branching (an Inconsistency it raises propagates to the parent), assign
the node id, count a solution on an empty branch list; otherwise loop over
the alternatives: each callback increments the node count, runs the
alternative and recurses; an Inconsistency from either is caught right
there, incrementing the failure count and moving to the next sibling, while
StopSearch (and exhausted fuel) aborts the loop and propagates. -/
def dfsGo {σ : Type} (branching : σ → Except Unit (List (σ → Except Unit σ)))
    (limit : SearchStatistics → Bool) :
    Nat → σ → DFSState → Option (Except (SearchSignal × DFSState) DFSState)
  | 0, _, _ => none
  | fuel + 1, s, st =>
    if limit st.stats then some (Except.error (SearchSignal.stop, st))
    else
      match branching s with
      | Except.error _ => some (Except.error (SearchSignal.inconsistent, st))
      | Except.ok branches =>
        let st1 : DFSState := { st with currNodeId := st.currNodeId + 1 }
        if branches.isEmpty then
          some (Except.ok { st1 with stats :=
            { st1.stats with nSolutions := st1.stats.nSolutions + 1 } })
        else
          branches.foldl (fun acc b =>
            match acc with
            | some (Except.ok stc) =>
              let stn : DFSState := { stc with stats :=
                { stc.stats with nNodes := stc.stats.nNodes + 1 } }
              match b s with
              | Except.error _ =>
                some (Except.ok
                  { stats := { stn.stats with nFailures := stn.stats.nFailures + 1 },
                    currNodeId := stn.currNodeId + 1 })
              | Except.ok s2 =>
                match dfsGo branching limit fuel s2 stn with
                | none => none
                | some (Except.error (SearchSignal.stop, st2)) =>
                  some (Except.error (SearchSignal.stop, st2))
                | some (Except.error (SearchSignal.inconsistent, st2)) =>
                  some (Except.ok
                    { stats := { st2.stats with nFailures := st2.stats.nFailures + 1 },
                      currNodeId := st2.currNodeId + 1 })
                | some (Except.ok st2) => some (Except.ok st2)
            | other => other) (some (Except.ok st1))

/-- Embeds `DFSearch._solve`: reset the node counter, run the search in a
`with_new_state`, set `completed` on normal exit, swallow StopSearch; an
Inconsistency raised at the root propagates to the caller
(`Except.error`). -/
def dfsSolveAux {σ : Type} (branching : σ → Except Unit (List (σ → Except Unit σ)))
    (limit : SearchStatistics → Bool) (fuel : Nat) (s0 : σ) :
    Option (Except Unit SearchStatistics) :=
  match dfsGo branching limit fuel s0
      { stats := SearchStatistics.init, currNodeId := 0 } with
  | none => none
  | some (Except.ok st) => some (Except.ok { st.stats with completed := true })
  | some (Except.error (SearchSignal.stop, st)) => some (Except.ok st.stats)
  | some (Except.error (SearchSignal.inconsistent, _)) => some (Except.error ())

/-- Embeds `DFSearch.solve` (with its optional limit). -/
def dfsSolve {σ : Type} (branching : σ → Except Unit (List (σ → Except Unit σ)))
    (limit : Option (SearchStatistics → Bool)) (fuel : Nat) (s0 : σ) :
    Option (Except Unit SearchStatistics) :=
  match limit with
  | some l => dfsSolveAux branching l fuel s0
  | none => dfsSolveAux branching (fun _ => false) fuel s0

/-- Embeds `DFSearch.optimize`: a fresh statistics object, the
solution-listener installing `obj.tighten` (acting through the solver state
inside `σ`), then `_solve`. -/
def dfsOptimize {σ : Type} (branching : σ → Except Unit (List (σ → Except Unit σ)))
    (limit : Option (SearchStatistics → Bool)) (fuel : Nat) (s0 : σ) :
    Option (Except Unit SearchStatistics) :=
  match limit with
  | some l => dfsSolveAux branching l fuel s0
  | none => dfsSolveAux branching (fun _ => false) fuel s0

/-- Embeds `DFSearch.optimize_subject_to`: a fresh `statistics`, then a
`with_new_state` whose callback runs `subject_to()` and rebinds the result
of the nested `optimize` to a callback-local variable (`statistics = 
self.optimize(obj, limit)` assigns a new local in the Python closure),
catching Inconsistency; the function returns the outer, untouched
`statistics` object. -/
def dfsOptimizeSubjectTo {σ : Type}
    (branching : σ → Except Unit (List (σ → Except Unit σ)))
    (limit : Option (SearchStatistics → Bool)) (subjectTo : σ → Except Unit σ)
    (fuel : Nat) (s0 : σ) : Option SearchStatistics :=
  match subjectTo s0 with
  | Except.error _ => some SearchStatistics.init
  | Except.ok s1 =>
    match dfsOptimize branching limit fuel s1 with
    | none => none
    | some _ => some SearchStatistics.init

/-- The three-binary-variables model of claim C8: a state is the list of
three optionally-fixed 0/1 variables. -/
def firstUnfixedAux : List (Option Nat) → Nat → Option Nat
  | [], _ => none
  | none :: _, i => some i
  | some _ :: rest, i => firstUnfixedAux rest (i + 1)

/-- The branching of claim C8: pick the first unfixed variable and return
the alternatives fix(0) and fix(1); the empty list when all are fixed. -/
def binBranching (s : List (Option Nat)) :
    Except Unit (List (List (Option Nat) → Except Unit (List (Option Nat)))) :=
  match firstUnfixedAux s 0 with
  | none => Except.ok []
  | some i => Except.ok
      [fun s2 => Except.ok (s2.set i (some 0)),
       fun s2 => Except.ok (s2.set i (some 1))]

/-! ### Theorems -/

theorem length_setCell {V : Type} (cells : List (TrailCell V)) (i : Nat) (c : TrailCell V) :
    (setCell cells i c).length = cells.length := by
  induction cells generalizing i with
  | nil => rfl
  | cons c0 cs ih =>
    cases i with
    | zero => rfl
    | succ n => simpa [setCell] using ih n

theorem length_setCellVal {V : Type} (cells : List (TrailCell V)) (i : Nat) (v : V) :
    (setCellVal cells i v).length = cells.length := by
  induction cells generalizing i with
  | nil => rfl
  | cons c0 cs ih =>
    cases i with
    | zero => rfl
    | succ n => simpa [setCellVal] using ih n

theorem vals_setCell {V : Type} (cells : List (TrailCell V)) (i : Nat) (c : TrailCell V) :
    (setCell cells i c).map (fun x => x.v) = (cells.map (fun x => x.v)).set i c.v := by
  induction cells generalizing i with
  | nil => rfl
  | cons c0 cs ih =>
    cases i with
    | zero => rfl
    | succ n => simpa [setCell] using ih n

theorem vals_setCellVal {V : Type} (cells : List (TrailCell V)) (i : Nat) (v : V) :
    (setCellVal cells i v).map (fun x => x.v) = (cells.map (fun x => x.v)).set i v := by
  induction cells generalizing i with
  | nil => rfl
  | cons c0 cs ih =>
    cases i with
    | zero => rfl
    | succ n => simpa [setCellVal] using ih n

theorem mem_setCell {V : Type} {cells : List (TrailCell V)} {i : Nat} {c x : TrailCell V}
    (hx : x ∈ setCell cells i c) : x ∈ cells ∨ x = c := by
  induction cells generalizing i with
  | nil => simp [setCell] at hx
  | cons c0 cs ih =>
    cases i with
    | zero =>
      rcases List.mem_cons.mp hx with h | h
      · exact Or.inr h
      · exact Or.inl (List.mem_cons_of_mem _ h)
    | succ n =>
      rcases List.mem_cons.mp hx with h | h
      · exact Or.inl (h ▸ List.mem_cons_self _ _)
      · rcases ih h with h2 | h2
        · exact Or.inl (List.mem_cons_of_mem _ h2)
        · exact Or.inr h2

theorem lastMagic_mem_setCellVal {V : Type} {cells : List (TrailCell V)} {i : Nat} {v : V}
    {x : TrailCell V} (hx : x ∈ setCellVal cells i v) :
    ∃ c2 ∈ cells, x.lastMagic = c2.lastMagic := by
  induction cells generalizing i with
  | nil => simp [setCellVal] at hx
  | cons c0 cs ih =>
    cases i with
    | zero =>
      rcases List.mem_cons.mp hx with h | h
      · exact ⟨c0, List.mem_cons_self _ _, by simp [h]⟩
      · exact ⟨x, List.mem_cons_of_mem _ h, rfl⟩
    | succ n =>
      rcases List.mem_cons.mp hx with h | h
      · exact ⟨c0, List.mem_cons_self _ _, by simp [h]⟩
      · rcases ih h with ⟨c2, hc2, he⟩
        exact ⟨c2, List.mem_cons_of_mem _ hc2, he⟩

theorem lastMagic_mem_applyEntries {V : Type} {es : List (Nat × V)}
    {cells : List (TrailCell V)} {x : TrailCell V} (hx : x ∈ applyEntries es cells) :
    ∃ c2 ∈ cells, x.lastMagic = c2.lastMagic := by
  induction es generalizing cells with
  | nil => exact ⟨x, hx, rfl⟩
  | cons e rest ih =>
    obtain ⟨i, v⟩ := e
    rcases @ih (setCellVal cells i v) hx with ⟨c2, hc2, he⟩
    rcases lastMagic_mem_setCellVal hc2 with ⟨c3, hc3, he2⟩
    exact ⟨c3, hc3, he.trans he2⟩

theorem vals_applyEntries {V : Type} (es : List (Nat × V)) (cells : List (TrailCell V)) :
    (applyEntries es cells).map (fun x => x.v)
      = applyVals es (cells.map (fun x => x.v)) := by
  induction es generalizing cells with
  | nil => rfl
  | cons e rest ih =>
    obtain ⟨i, v⟩ := e
    simp only [applyEntries, applyVals, ih, vals_setCellVal]

theorem length_applyEntries {V : Type} (es : List (Nat × V)) (cells : List (TrailCell V)) :
    (applyEntries es cells).length = cells.length := by
  induction es generalizing cells with
  | nil => rfl
  | cons e rest ih =>
    obtain ⟨i, v⟩ := e
    simp only [applyEntries]
    rw [ih, length_setCellVal]

theorem list_set_self {V : Type} {vs : List V} {i : Nat} {a : V}
    (h : vs.get? i = some a) : vs.set i a = vs := by
  induction vs generalizing i with
  | nil => simp at h
  | cons v0 rest ih =>
    cases i with
    | zero => simp at h; simp [h]
    | succ n =>
      simp only [List.get?] at h
      simp [List.set, ih h]

theorem applyVals_set_covered {V : Type} {es : List (Nat × V)} {i : Nat}
    (h : ∃ w, (i, w) ∈ es) (vs : List V) (v : V) :
    applyVals es (vs.set i v) = applyVals es vs := by
  induction es generalizing vs with
  | nil => rcases h with ⟨w, hw⟩; simp at hw
  | cons e rest ih =>
    obtain ⟨j, u⟩ := e
    by_cases hji : j = i
    · subst hji
      simp only [applyVals, List.set_set]
    · rcases h with ⟨w, hw⟩
      rcases List.mem_cons.mp hw with h1 | h1
      · exact absurd (congrArg Prod.fst h1).symm hji
      · simp only [applyVals]
        rw [List.set_comm _ _ _ (fun he => hji he.symm), ih ⟨w, h1⟩]

theorem get?_setCell_self {V : Type} {cells : List (TrailCell V)} {i : Nat}
    {c0 : TrailCell V} (c : TrailCell V) (h : cells.get? i = some c0) :
    (setCell cells i c).get? i = some c := by
  induction cells generalizing i with
  | nil => simp at h
  | cons x cs ih =>
    cases i with
    | zero => rfl
    | succ n =>
      simp only [List.get?] at h
      simpa [setCell] using ih h

theorem get?_setCell_ne {V : Type} (cells : List (TrailCell V)) {i j : Nat}
    (c : TrailCell V) (h : j ≠ i) :
    (setCell cells i c).get? j = cells.get? j := by
  induction cells generalizing i j with
  | nil => simp [setCell]
  | cons x cs ih =>
    cases i with
    | zero =>
      cases j with
      | zero => exact absurd rfl h
      | succ m => rfl
    | succ n =>
      cases j with
      | zero => rfl
      | succ m => simpa [setCell] using ih (fun he => h (by simp [he]))

theorem setValue_step {V : Type} [DecidableEq V] (t : Trailer V) (i : Nat) (v : V)
    (hle : MagLe t) (hcov : Covered t) :
    (t.setValue i v).prior = t.prior ∧ (t.setValue i v).magic = t.magic ∧
    MagLe (t.setValue i v) ∧ Covered (t.setValue i v) ∧
    applyVals (t.setValue i v).current (t.setValue i v).vals
      = applyVals t.current t.vals ∧
    (t.setValue i v).cells.length = t.cells.length := by
  unfold Trailer.setValue Trailer.vals
  cases hget : t.cells.get? i with
  | none => exact ⟨rfl, rfl, hle, hcov, rfl, rfl⟩
  | some c =>
    by_cases hv : v = c.v
    · simp only [hget, hv, if_pos rfl]
      exact ⟨rfl, rfl, hle, hcov, rfl, rfl⟩
    · simp only [hget, if_neg hv]
      have hvget : (t.cells.map (fun x => x.v)).get? i = some c.v := by
        rw [List.get?_map, hget]
        rfl
      by_cases hmag : c.lastMagic = t.magic
      · -- already trailed in this frame: no new entry
        rw [if_neg (not_not_intro hmag)]
        refine ⟨by trivial, by trivial, ?_, ?_, ?_, by simp [length_setCell]⟩
        · intro x hx
          rcases mem_setCell hx with h | h
          · exact hle x h
          · simp [h]
        · intro j cj hj hjm
          by_cases hji : j = i
          · subst hji
            exact hcov j c hget hmag
          · exact hcov j cj (by rwa [get?_setCell_ne _ _ hji] at hj) hjm
        · have hmem : ∃ w, (i, w) ∈ t.current := hcov i c hget hmag
          show applyVals t.current ((setCell t.cells i _).map _) = _
          rw [vals_setCell]
          exact applyVals_set_covered hmem _ _
      · -- first write of this frame: trail the old value
        rw [if_pos hmag]
        refine ⟨by trivial, by trivial, ?_, ?_, ?_, by simp [length_setCell]⟩
        · intro x hx
          rcases mem_setCell hx with h | h
          · exact hle x h
          · simp [h]
        · intro j cj hj hjm
          by_cases hji : j = i
          · exact ⟨c.v, by simp [hji]⟩
          · rcases hcov j cj (by rwa [get?_setCell_ne _ _ hji] at hj) hjm with ⟨w, hw⟩
            exact ⟨w, List.mem_cons_of_mem _ hw⟩
        · show applyVals ((i, c.v) :: t.current) ((setCell t.cells i _).map _) = _
          rw [vals_setCell]
          show applyVals t.current _ = _
          rw [List.set_set, list_set_self hvget]

theorem runOp_write_step {V : Type} [DecidableEq V] (t : Trailer V) (op : SMOp V)
    (hw : (match op with
           | SMOp.set _ _ => True
           | SMOp.modify _ _ => True
           | _ => False))
    (hle : MagLe t) (hcov : Covered t) :
    (t.runOp op).prior = t.prior ∧ (t.runOp op).magic = t.magic ∧
    MagLe (t.runOp op) ∧ Covered (t.runOp op) ∧
    applyVals (t.runOp op).current (t.runOp op).vals = applyVals t.current t.vals ∧
    (t.runOp op).cells.length = t.cells.length := by
  cases op with
  | set i v => exact setValue_step t i v hle hcov
  | modify i f =>
    simp only [Trailer.runOp]
    cases hget : t.cells.get? i with
    | none => exact ⟨rfl, rfl, hle, hcov, rfl, rfl⟩
    | some c => exact setValue_step t i (f c.v) hle hcov
  | save => exact hw.elim
  | restore => exact hw.elim

theorem mem_of_getq {α : Type} {l : List α} {n : Nat} {a : α}
    (h : l.get? n = some a) : a ∈ l := by
  induction l generalizing n with
  | nil => simp at h
  | cons x xs ih =>
    cases n with
    | zero => simp at h; simp [h]
    | succ m =>
      simp only [List.get?] at h
      exact List.mem_cons_of_mem _ (ih h)

theorem StepOk.refl {V : Type} (t : Trailer V) : StepOk t t :=
  ⟨rfl, le_refl _, rfl, rfl⟩

theorem StepOk.trans {V : Type} {t u w : Trailer V} (h1 : StepOk t u)
    (h2 : StepOk u w) : StepOk t w :=
  ⟨h2.1.trans h1.1, h1.2.1.trans h2.2.1, h2.2.2.1.trans h1.2.2.1,
    h2.2.2.2.trans h1.2.2.2⟩

theorem runOps_append {V : Type} [DecidableEq V] (a b : List (SMOp V)) (t : Trailer V) :
    Trailer.runOps (a ++ b) t = Trailer.runOps b (Trailer.runOps a t) := by
  induction a generalizing t with
  | nil => rfl
  | cons op rest ih => simpa [Trailer.runOps] using ih (t.runOp op)

theorem saveState_magLe {V : Type} {t : Trailer V} (hle : MagLe t) :
    MagLe t.saveState := by
  intro c hc
  exact le_trans (hle c hc) (by simp [Trailer.saveState])

theorem saveState_covered {V : Type} {t : Trailer V} (hle : MagLe t) :
    Covered t.saveState := by
  intro i c hget hmag
  have := hle c (mem_of_getq hget)
  simp only [Trailer.saveState] at hmag
  omega

/-- Restoring at the end of a frame: if the block left the prior stack as the
save pushed it and the current trail undoes correctly, then `restore_state`
recovers the pre-frame values, prior stack and current trail. -/
theorem restoreState_of_block {V : Type} (t u : Trailer V)
    (hprior : u.prior = t.current :: t.prior)
    (happ : applyVals u.current u.vals = t.vals)
    (hlen : u.cells.length = t.cells.length)
    (hle : MagLe u) :
    u.restoreState.vals = t.vals ∧
    u.restoreState.prior = t.prior ∧
    u.restoreState.current = t.current ∧
    u.restoreState.magic = u.magic + 1 ∧
    MagLe u.restoreState ∧ Covered u.restoreState ∧
    u.restoreState.cells.length = t.cells.length := by
  refine ⟨?_, ?_, ?_, rfl, ?_, ?_, ?_⟩
  · show (applyEntries u.current u.cells).map (fun c => c.v) = t.vals
    rw [vals_applyEntries]
    exact happ
  · simp [Trailer.restoreState, hprior]
  · simp [Trailer.restoreState, hprior]
  · intro c hc
    rcases lastMagic_mem_applyEntries hc with ⟨c2, hc2, he⟩
    have := hle c2 hc2
    simp only [Trailer.restoreState]
    omega
  · intro i c hget hmag
    rcases lastMagic_mem_applyEntries (mem_of_getq hget) with ⟨c2, hc2, he⟩
    have := hle c2 hc2
    simp only [Trailer.restoreState] at hmag
    omega
  · show (applyEntries u.current u.cells).length = t.cells.length
    rw [length_applyEntries]
    exact hlen

/-- Core lemma for the trail strategy: a balanced operation block keeps the
prior stack, preserves the invariants, and keeps the property that restoring
the current trail recovers the values it recovered before the block. -/
theorem runOps_balanced {V : Type} [DecidableEq V] {ops : List (SMOp V)}
    (hb : Balanced ops) :
    ∀ t : Trailer V, MagLe t → Covered t →
      StepOk t (Trailer.runOps ops t) ∧ MagLe (Trailer.runOps ops t) ∧
      Covered (Trailer.runOps ops t) := by
  induction hb with
  | nil => intro t hle hcov; exact ⟨StepOk.refl t, hle, hcov⟩
  | set i v hrest ih =>
    intro t hle hcov
    obtain ⟨h1, h2, h3, h4, h5, h6⟩ := setValue_step t i v hle hcov
    obtain ⟨g1, g2, g3⟩ := ih (t.setValue i v) h3 h4
    exact ⟨StepOk.trans ⟨h1, le_of_eq h2.symm, h5, h6⟩ g1, g2, g3⟩
  | modify i f hrest ih =>
    intro t hle hcov
    obtain ⟨h1, h2, h3, h4, h5, h6⟩ :=
      runOp_write_step t (SMOp.modify i f) trivial hle hcov
    obtain ⟨g1, g2, g3⟩ := ih (t.runOp (SMOp.modify i f)) h3 h4
    exact ⟨StepOk.trans ⟨h1, le_of_eq h2.symm, h5, h6⟩ g1, g2, g3⟩
  | nest hinner hrest ihInner ihRest =>
    intro t hle hcov
    rename_i inner rest
    have hrw : Trailer.runOps (SMOp.save :: inner ++ SMOp.restore :: rest) t
        = Trailer.runOps rest
            ((Trailer.runOps inner t.saveState).restoreState) := by
      show Trailer.runOps (inner ++ SMOp.restore :: rest) t.saveState = _
      rw [runOps_append]
      rfl
    rw [hrw]
    obtain ⟨s1, s2, s3⟩ := ihInner t.saveState (saveState_magLe hle)
      (saveState_covered hle)
    set t2 := Trailer.runOps inner t.saveState with ht2
    have hprior : t2.prior = t.current :: t.prior := s1.1
    have happ : applyVals t2.current t2.vals = t.vals := by
      have := s1.2.2.1
      simpa [Trailer.saveState, applyVals, Trailer.vals] using this
    have hlen : t2.cells.length = t.cells.length := s1.2.2.2
    obtain ⟨r1, r2, r3, r4, r5, r6, r7⟩ :=
      restoreState_of_block t t2 hprior happ hlen s2
    obtain ⟨g1, g2, g3⟩ := ihRest t2.restoreState r5 r6
    refine ⟨StepOk.trans ?_ g1, g2, g3⟩
    refine ⟨r2, ?_, ?_, r7⟩
    · have hm1 : t.magic + 1 ≤ t2.magic := by
        simpa [Trailer.saveState] using s1.2.1
      omega
    · rw [r3, r1]

/-- Main restore lemma for the trail strategy: a `save_state`, any balanced
block of writes and nested save/restore pairs, then `restore_state`,
reproduces the values, the level, the prior stack and the current trail from
before the `save_state`. -/
theorem trailer_save_run_restore {V : Type} [DecidableEq V] {ops : List (SMOp V)}
    (hb : Balanced ops) (t : Trailer V) (hle : MagLe t) (hcov : Covered t) :
    ((Trailer.runOps ops t.saveState).restoreState).vals = t.vals ∧
    ((Trailer.runOps ops t.saveState).restoreState).getLevel
      = (Trailer.runOps ops t.saveState).getLevel - 1 ∧
    ((Trailer.runOps ops t.saveState).restoreState).getLevel = t.getLevel ∧
    ((Trailer.runOps ops t.saveState).restoreState).prior = t.prior ∧
    ((Trailer.runOps ops t.saveState).restoreState).current = t.current := by
  obtain ⟨s1, s2, s3⟩ := runOps_balanced hb t.saveState (saveState_magLe hle)
    (saveState_covered hle)
  set u := Trailer.runOps ops t.saveState with hu
  have hprior : u.prior = t.current :: t.prior := s1.1
  have happ : applyVals u.current u.vals = t.vals := by
    have := s1.2.2.1
    simpa [Trailer.saveState, applyVals, Trailer.vals] using this
  have hlen : u.cells.length = t.cells.length := s1.2.2.2
  obtain ⟨r1, r2, r3, r4, r5, r6, r7⟩ := restoreState_of_block t u hprior happ hlen s2
  refine ⟨r1, ?_, ?_, r2, r3⟩
  · simp only [Trailer.getLevel, r2, hprior, List.length_cons]
    push_cast
    ring
  · simp only [Trailer.getLevel, r2]

/-- One-step unfolding of `restore_state_until` when exactly one frame is
above the target level. -/
theorem restoreUntil_one {V : Type} (u : Trailer V) (level : Int)
    (hne : u.prior ≠ []) (h1 : u.getLevel = level + 1)
    (h2 : u.restoreState.getLevel = level) :
    u.restoreUntil level = u.restoreState := by
  rw [Trailer.restoreUntil]
  rw [if_neg (by
    rw [not_or]
    constructor
    · simpa [List.isEmpty_iff] using hne
    · omega)]
  rw [Trailer.restoreUntil]
  rw [if_pos (Or.inr (le_of_eq h2))]

theorem restoreBackup_full {V : Type} {vs store : List V}
    (h : vs.length = store.length) : restoreBackup vs store = vs := by
  induction vs generalizing store with
  | nil =>
    cases store with
    | nil => rfl
    | cons w ws => simp at h
  | cons v rest ih =>
    cases store with
    | nil => simp at h
    | cons w ws =>
      simp only [restoreBackup]
      rw [ih (by simpa using h)]

/-- A balanced block leaves a `Copier` prior stack untouched and the store
length unchanged. -/
theorem copier_runOps_balanced {V : Type} {ops : List (SMOp V)} (hb : Balanced ops) :
    ∀ c : Copier V, (Copier.runOps ops c).prior = c.prior ∧
      (Copier.runOps ops c).store.length = c.store.length := by
  induction hb with
  | nil => intro c; exact ⟨rfl, rfl⟩
  | set i v hrest ih =>
    rename_i rest
    intro c
    have hstep : Copier.runOps (SMOp.set i v :: rest) c
        = Copier.runOps rest (c.runOp (SMOp.set i v)) := rfl
    rw [hstep]
    obtain ⟨g1, g2⟩ := ih (c.runOp (SMOp.set i v))
    refine ⟨g1, ?_⟩
    simpa [Copier.runOp, Copier.setValue] using g2
  | modify i f hrest ih =>
    rename_i rest
    intro c
    have hstep : Copier.runOps (SMOp.modify i f :: rest) c
        = Copier.runOps rest (c.runOp (SMOp.modify i f)) := rfl
    rw [hstep]
    obtain ⟨g1, g2⟩ := ih (c.runOp (SMOp.modify i f))
    refine ⟨?_, ?_⟩
    · rw [g1]
      show (Copier.runOp c (SMOp.modify i f)).prior = c.prior
      simp only [Copier.runOp]
      cases c.store.get? i with
      | none => rfl
      | some v => rfl
    · rw [g2]
      show (Copier.runOp c (SMOp.modify i f)).store.length = _
      simp only [Copier.runOp]
      cases c.store.get? i with
      | none => rfl
      | some v => simp [Copier.setValue]
  | nest hinner hrest ihInner ihRest =>
    intro c
    rename_i inner rest
    have hrw : Copier.runOps (SMOp.save :: inner ++ SMOp.restore :: rest) c
        = Copier.runOps rest ((Copier.runOps inner c.saveState).restoreState) := by
      show Copier.runOps (inner ++ SMOp.restore :: rest) c.saveState = _
      have : ∀ (a b : List (SMOp V)) (x : Copier V),
          Copier.runOps (a ++ b) x = Copier.runOps b (Copier.runOps a x) := by
        intro a
        induction a with
        | nil => intro b x; rfl
        | cons op r ih2 => intro b x; simpa [Copier.runOps] using ih2 b (x.runOp op)
      rw [this]
      rfl
    rw [hrw]
    obtain ⟨s1, s2⟩ := ihInner c.saveState
    set c2 := Copier.runOps inner c.saveState with hc2
    have hprior : c2.prior = c.store :: c.prior := s1
    have hrest2 : c2.restoreState.store = c.store ∧ c2.restoreState.prior = c.prior := by
      constructor
      · show restoreBackup (c2.prior.headD []) c2.store = c.store
        rw [hprior]
        show restoreBackup c.store c2.store = c.store
        rw [restoreBackup_full (by rw [s2]; rfl)]
      · show c2.prior.tail = c.prior
        rw [hprior]
        rfl
    obtain ⟨g1, g2⟩ := ihRest c2.restoreState
    refine ⟨by rw [g1, hrest2.2], by rw [g2, hrest2.1]⟩

/-- Main restore lemma for the copy strategy. -/
theorem copier_save_run_restore {V : Type} {ops : List (SMOp V)} (hb : Balanced ops)
    (c : Copier V) :
    ((Copier.runOps ops c.saveState).restoreState).store = c.store ∧
    ((Copier.runOps ops c.saveState).restoreState).getLevel
      = (Copier.runOps ops c.saveState).getLevel - 1 ∧
    ((Copier.runOps ops c.saveState).restoreState).getLevel = c.getLevel ∧
    ((Copier.runOps ops c.saveState).restoreState).prior = c.prior := by
  obtain ⟨s1, s2⟩ := copier_runOps_balanced hb c.saveState
  set u := Copier.runOps ops c.saveState with hu
  have hprior : u.prior = c.store :: c.prior := s1
  have h1 : u.restoreState.store = c.store := by
    show restoreBackup (u.prior.headD []) u.store = c.store
    rw [hprior]
    show restoreBackup c.store u.store = c.store
    rw [restoreBackup_full (by rw [s2]; rfl)]
  have h2 : u.restoreState.prior = c.prior := by
    show u.prior.tail = c.prior
    rw [hprior]
    rfl
  refine ⟨h1, ?_, ?_, h2⟩
  · simp only [Copier.getLevel, h2, hprior, List.length_cons]
    push_cast
    ring
  · simp only [Copier.getLevel, h2]

theorem get?_some_of_lt {α : Type} {l : List α} {i : Nat} (h : i < l.length) :
    ∃ a, l.get? i = some a := by
  induction l generalizing i with
  | nil => simp at h
  | cons x xs ih =>
    cases i with
    | zero => exact ⟨x, rfl⟩
    | succ n => exact ih (by simpa using h)

theorem frameInv_setValue {V : Type} [DecidableEq V] {t0 s : Trailer V}
    (hinv : FrameInv t0 s) (i : Nat) (v : V) : FrameInv t0 (s.setValue i v) := by
  obtain ⟨h1, h2, h3, h4, h5, h6⟩ := hinv
  unfold Trailer.setValue
  cases hget : s.cells.get? i with
  | none => exact ⟨h1, h2, h3, h4, h5, h6⟩
  | some c =>
    by_cases hv : v = c.v
    · simp only [hget, hv, if_pos rfl]
      exact ⟨h1, h2, h3, h4, h5, h6⟩
    · simp only [hget, if_neg hv]
      by_cases hmag : c.lastMagic = s.magic
      · -- already trailed: no new entry, only the value field changes
        rw [if_neg (not_not_intro hmag)]
        refine ⟨h1, by simpa [length_setCell] using h2, h3, ?_, ?_, h6⟩
        · intro e he
          by_cases hei : e.1 = i
          · exact ⟨_, by rw [hei]; exact get?_setCell_self _ hget, rfl⟩
          · rcases h4 e he with ⟨c3, hc3, hm3⟩
            exact ⟨c3, by rwa [get?_setCell_ne _ _ hei], hm3⟩
        · intro j cj c2 hj hj2 hne
          by_cases hji : j = i
          · subst hji
            rw [get?_setCell_self _ hget] at hj
            have hcj : cj = { v := v, lastMagic := s.magic } := (Option.some_inj.mp hj).symm
            exact absurd (by rw [hcj]) hne
          · exact h5 j cj c2 (by rwa [get?_setCell_ne _ _ hji] at hj) hj2 hne
      · -- first write in this frame: one entry is pushed
        rw [if_pos hmag]
        have hlt : i < t0.cells.length := by
          rw [← h2]
          exact List.get?_eq_some.mp hget |>.choose
        obtain ⟨c2, hc2⟩ := get?_some_of_lt hlt
        have hcc2 : c = c2 := h5 i c c2 hget hc2 hmag
        have hnomem : ∀ e ∈ s.current, ¬(e.1 == i) = true := by
          intro e he hei
          rcases h4 e he with ⟨c3, hc3, hm3⟩
          have : e.1 = i := by simpa using hei
          rw [this, hget] at hc3
          exact hmag (by rw [← Option.some_inj.mp hc3] at hm3; exact hm3)
        refine ⟨h1, by simpa [length_setCell] using h2, ?_, ?_, ?_, ?_⟩
        · intro e he
          rcases List.mem_cons.mp he with he1 | he1
          · exact ⟨c2, by rw [he1]; exact hc2, by rw [he1, hcc2]⟩
          · exact h3 e he1
        · intro e he
          rcases List.mem_cons.mp he with he1 | he1
          · exact ⟨_, by rw [he1]; exact get?_setCell_self _ hget, rfl⟩
          · rcases h4 e he1 with ⟨c3, hc3, hm3⟩
            by_cases hei : e.1 = i
            · exact ⟨_, by rw [hei]; exact get?_setCell_self _ hget, rfl⟩
            · exact ⟨c3, by rwa [get?_setCell_ne _ _ hei], hm3⟩
        · intro j cj cj2 hj hj2 hne
          by_cases hji : j = i
          · subst hji
            rw [get?_setCell_self _ hget] at hj
            have hcj : cj = { v := v, lastMagic := s.magic } := (Option.some_inj.mp hj).symm
            exact absurd (by rw [hcj]) hne
          · exact h5 j cj cj2 (by rwa [get?_setCell_ne _ _ hji] at hj) hj2 hne
        · intro j
          by_cases hji : j = i
          · subst hji
            have hz : s.current.countP (fun e => e.1 == j) = 0 :=
              List.countP_eq_zero.mpr (hnomem)
            simp [List.countP_cons, hz]
          · have : ((i, c.v).1 == j) = false := by
              simp [Ne.symm hji]
            simp [List.countP_cons, this]
            exact h6 j

theorem frameInv_runOp {V : Type} [DecidableEq V] {t0 s : Trailer V} {op : SMOp V}
    (hinv : FrameInv t0 s) (hw : isWriteOp op = true) :
    FrameInv t0 (s.runOp op) := by
  cases op with
  | set i v => exact frameInv_setValue hinv i v
  | modify i f =>
    show FrameInv t0 (match s.cells.get? i with
      | none => s
      | some c => s.setValue i (f c.v))
    cases s.cells.get? i with
    | none => exact hinv
    | some c => exact frameInv_setValue hinv i (f c.v)
  | save => simp [isWriteOp] at hw
  | restore => simp [isWriteOp] at hw

theorem frameInv_runOps {V : Type} [DecidableEq V] {ops : List (SMOp V)}
    (hw : ∀ op ∈ ops, isWriteOp op = true) :
    ∀ {t0 s : Trailer V}, FrameInv t0 s → FrameInv t0 (Trailer.runOps ops s) := by
  induction ops with
  | nil => intro t0 s h; exact h
  | cons op rest ih =>
    intro t0 s h
    exact ih (fun o ho => hw o (List.mem_cons_of_mem _ ho))
      (frameInv_runOp h (hw op (List.mem_cons_self _ _)))

theorem frameInv_init {V : Type} (t : Trailer V) :
    FrameInv t.saveState t.saveState := by
  refine ⟨rfl, rfl, ?_, ?_, ?_, ?_⟩
  · intro e he; simp [Trailer.saveState] at he
  · intro e he; simp [Trailer.saveState] at he
  · intro i c c2 h1 h2 _
    rw [h1] at h2
    exact Option.some_inj.mp h2
  · intro i; simp [Trailer.saveState]

theorem covered_of_no_stamp {V : Type} {t : Trailer V}
    (h : ∀ c ∈ t.cells, c.lastMagic ≠ t.magic) : Covered t :=
  fun _ c hget hmag => absurd hmag (h c (mem_of_getq hget))

/-- One-step unfolding of the copy strategy `restore_state_until` when
exactly one frame is above the target level. -/
theorem copier_restoreUntil_one {V : Type} (u : Copier V) (level : Int)
    (hne : u.prior ≠ []) (h1 : u.getLevel = level + 1)
    (h2 : u.restoreState.getLevel = level) :
    u.restoreUntil level = u.restoreState := by
  rw [Copier.restoreUntil]
  rw [if_neg (by
    rw [not_or]
    constructor
    · simpa [List.isEmpty_iff] using hne
    · omega)]
  rw [Copier.restoreUntil]
  rw [if_pos (Or.inr (le_of_eq h2))]

/-- C1 (amended): for both state managers, `with_new_state(f)` records
`L = level`, saves the state and runs `f`; when `f` returns normally (and
performs properly matched save/restore pairs of its own), the state is
restored until `L`, so the level equals `L` and every reversible primitive
holds its value from before the call.  When `f` raises, the exception
propagates with the frame left unrestored: `restore_state_until` never runs
(the source has no try/finally), so the saved frame is popped only by an
enclosing restore. -/
theorem c1_with_new_state_amended :
    (∀ (V : Type) [DecidableEq V] (ops : List (SMOp V)) (t : Trailer V),
      Balanced ops → MagLe t → Covered t →
      ∃ u, Trailer.withNewState t ops false = Except.ok u ∧
        u.getLevel = t.getLevel ∧ u.vals = t.vals ∧
        u.prior = t.prior ∧ u.current = t.current) ∧
    (∀ (V : Type) (ops : List (SMOp V)) (c : Copier V), Balanced ops →
      ∃ u, Copier.withNewState c ops false = Except.ok u ∧
        u.getLevel = c.getLevel ∧ u.store = c.store ∧ u.prior = c.prior) ∧
    (∀ (V : Type) [DecidableEq V] (ops : List (SMOp V)) (t : Trailer V),
      Trailer.withNewState t ops true
        = Except.error (Trailer.runOps ops t.saveState)) ∧
    (∀ (V : Type) (ops : List (SMOp V)) (c : Copier V),
      Copier.withNewState c ops true
        = Except.error (Copier.runOps ops c.saveState)) := by
  refine ⟨?_, ?_, fun V _ ops t => rfl, fun V ops c => rfl⟩
  · intro V _ ops t hb hle hcov
    obtain ⟨s1, _, _⟩ := runOps_balanced hb t.saveState (saveState_magLe hle)
      (saveState_covered hle)
    obtain ⟨r1, r2, r3, r4, r5⟩ := trailer_save_run_restore hb t hle hcov
    set u := Trailer.runOps ops t.saveState with hu
    have hprior : u.prior = t.current :: t.prior := s1.1
    have hlev : u.getLevel = t.getLevel + 1 := by
      simp only [Trailer.getLevel, hprior, List.length_cons]
      push_cast
      ring
    have hone : u.restoreUntil t.getLevel = u.restoreState :=
      restoreUntil_one u t.getLevel (by rw [hprior]; exact List.cons_ne_nil _ _)
        hlev r3
    refine ⟨u.restoreState, ?_, r3, r1, r4, r5⟩
    show Except.ok (u.restoreUntil t.getLevel) = _
    rw [hone]
  · intro V ops c hb
    obtain ⟨s1, s2⟩ := copier_runOps_balanced hb c.saveState
    obtain ⟨r1, r2, r3, r4⟩ := copier_save_run_restore hb c
    set u := Copier.runOps ops c.saveState with hu
    have hprior : u.prior = c.store :: c.prior := s1
    have hlev : u.getLevel = c.getLevel + 1 := by
      simp only [Copier.getLevel, hprior, List.length_cons]
      push_cast
      ring
    have hone : u.restoreUntil c.getLevel = u.restoreState :=
      copier_restoreUntil_one u c.getLevel (by rw [hprior]; exact List.cons_ne_nil _ _)
        hlev r3
    refine ⟨u.restoreState, ?_, r3, r1, r4⟩
    show Except.ok (u.restoreUntil c.getLevel) = _
    rw [hone]

/-- Witness for C1 (amended) at a concrete state manager and body. -/
theorem c1_with_new_state_amended_witness :
    (∃ u, Trailer.withNewState ((Trailer.mk0 Int).makeState 7) [SMOp.set 0 9] false
        = Except.ok u ∧
      u.getLevel = ((Trailer.mk0 Int).makeState 7).getLevel ∧
      u.vals = ((Trailer.mk0 Int).makeState 7).vals ∧
      u.prior = ((Trailer.mk0 Int).makeState 7).prior ∧
      u.current = ((Trailer.mk0 Int).makeState 7).current) ∧
    (∃ u, Copier.withNewState ((Copier.mk0 Int).makeState 7) [SMOp.set 0 9] false
        = Except.ok u ∧
      u.getLevel = ((Copier.mk0 Int).makeState 7).getLevel ∧
      u.store = ((Copier.mk0 Int).makeState 7).store ∧
      u.prior = ((Copier.mk0 Int).makeState 7).prior) := by
  constructor
  · exact c1_with_new_state_amended.1 Int [SMOp.set 0 9]
      ((Trailer.mk0 Int).makeState 7) (Balanced.set 0 9 Balanced.nil)
      (by unfold MagLe; decide) (covered_of_no_stamp (by decide))
  · exact c1_with_new_state_amended.2.1 Int [SMOp.set 0 9]
      ((Copier.mk0 Int).makeState 7) (Balanced.set 0 9 Balanced.nil)

/-- C1 counterexample: a body that writes a primitive and then raises leaves
`with_new_state` propagating the exception with the level still one above
`L` and the primitive still holding the new value, contradicting the claim
that the frame is restored even when `f` raises. -/
theorem c1_with_new_state_counterexample :
    Trailer.withNewState c1Start [SMOp.set 0 5] true = Except.error c1ErrState ∧
    c1ErrState.getLevel = c1Start.getLevel + 1 ∧
    c1ErrState.getLevel ≠ c1Start.getLevel ∧
    c1ErrState.vals = [5] ∧ c1Start.vals = [0] ∧
    c1ErrState.vals ≠ c1Start.vals := by
  refine ⟨rfl, by decide, by decide, by decide, by decide, by decide⟩

/-- C2 (amended): for both state managers, after `save_state` followed by any
balanced sequence of writes including properly nested save/restore pairs,
`restore_state` returns every reversible primitive to exactly the value it
held at the matching `save_state` and decreases the level by one.  For the
trail strategy the at-most-one-old-value bookkeeping holds for frames during
which no nested save/restore pair runs: each primitive then records at most
one old value, namely the value it held when the frame began. -/
theorem c2_state_restore_amended :
    (∀ (V : Type) [DecidableEq V] (ops : List (SMOp V)) (t : Trailer V),
      Balanced ops → MagLe t → Covered t →
      ((Trailer.runOps ops t.saveState).restoreState).vals = t.vals ∧
      ((Trailer.runOps ops t.saveState).restoreState).getLevel
        = (Trailer.runOps ops t.saveState).getLevel - 1) ∧
    (∀ (V : Type) (ops : List (SMOp V)) (c : Copier V), Balanced ops →
      ((Copier.runOps ops c.saveState).restoreState).store = c.store ∧
      ((Copier.runOps ops c.saveState).restoreState).getLevel
        = (Copier.runOps ops c.saveState).getLevel - 1) ∧
    (∀ (V : Type) [DecidableEq V] (ops : List (SMOp V)) (t : Trailer V),
      (∀ op ∈ ops, isWriteOp op = true) →
      (∀ i, (Trailer.runOps ops t.saveState).current.countP
          (fun e => e.1 == i) ≤ 1) ∧
      (∀ e ∈ (Trailer.runOps ops t.saveState).current,
        ∃ c, t.cells.get? e.1 = some c ∧ e.2 = c.v)) := by
  refine ⟨?_, ?_, ?_⟩
  · intro V _ ops t hb hle hcov
    obtain ⟨r1, r2, _, _, _⟩ := trailer_save_run_restore hb t hle hcov
    exact ⟨r1, r2⟩
  · intro V ops c hb
    obtain ⟨r1, r2, _, _⟩ := copier_save_run_restore hb c
    exact ⟨r1, r2⟩
  · intro V _ ops t hw
    have hinv := frameInv_runOps hw (frameInv_init t)
    exact ⟨hinv.2.2.2.2.2, hinv.2.2.1⟩

/-- Witness for C2 (amended) at a concrete manager, with a nested
save/restore pair inside the balanced block. -/
theorem c2_state_restore_amended_witness :
    ((((Trailer.runOps [SMOp.set 0 3, SMOp.save, SMOp.set 0 4, SMOp.restore]
          ((Trailer.mk0 Int).makeState 2).saveState).restoreState).vals
        = ((Trailer.mk0 Int).makeState 2).vals) ∧
      (((Trailer.runOps [SMOp.set 0 3, SMOp.save, SMOp.set 0 4, SMOp.restore]
          ((Trailer.mk0 Int).makeState 2).saveState).restoreState).getLevel
        = (Trailer.runOps [SMOp.set 0 3, SMOp.save, SMOp.set 0 4, SMOp.restore]
            ((Trailer.mk0 Int).makeState 2).saveState).getLevel - 1)) ∧
    ((((Copier.runOps [SMOp.set 0 3, SMOp.save, SMOp.set 0 4, SMOp.restore]
          ((Copier.mk0 Int).makeState 2).saveState).restoreState).store
        = ((Copier.mk0 Int).makeState 2).store) ∧
      (((Copier.runOps [SMOp.set 0 3, SMOp.save, SMOp.set 0 4, SMOp.restore]
          ((Copier.mk0 Int).makeState 2).saveState).restoreState).getLevel
        = (Copier.runOps [SMOp.set 0 3, SMOp.save, SMOp.set 0 4, SMOp.restore]
            ((Copier.mk0 Int).makeState 2).saveState).getLevel - 1)) ∧
    (∀ i, (Trailer.runOps [SMOp.set 0 5, SMOp.set 0 6]
        ((Trailer.mk0 Int).makeState 2).saveState).current.countP
        (fun e => e.1 == i) ≤ 1) := by
  refine ⟨?_, ?_, ?_⟩
  · exact c2_state_restore_amended.1 Int
      [SMOp.set 0 3, SMOp.save, SMOp.set 0 4, SMOp.restore]
      ((Trailer.mk0 Int).makeState 2)
      (Balanced.set 0 3 (Balanced.nest (Balanced.set 0 4 Balanced.nil) Balanced.nil))
      (by unfold MagLe; decide) (covered_of_no_stamp (by decide))
  · exact c2_state_restore_amended.2.1 Int
      [SMOp.set 0 3, SMOp.save, SMOp.set 0 4, SMOp.restore]
      ((Copier.mk0 Int).makeState 2)
      (Balanced.set 0 3 (Balanced.nest (Balanced.set 0 4 Balanced.nil) Balanced.nil))
  · exact (c2_state_restore_amended.2.2 Int [SMOp.set 0 5, SMOp.set 0 6]
      ((Trailer.mk0 Int).makeState 2) (by decide)).1

/-- C2 counterexample: with a nested save/restore pair inside the frame, the
magic counter moves on, so the write after the nested restore trails again:
the outer frame records two old values for the same primitive, and the later
entry records 1, not the value 0 the primitive held just before the first
write of the frame.  (Restoration is still correct because the entries are
popped in LIFO order.) -/
theorem c2_trail_counterexample :
    (Trailer.runOps c2CexOps ((Trailer.mk0 Int).makeState 0).saveState).current
      = [(0, 1), (0, 0)] ∧
    (Trailer.runOps c2CexOps ((Trailer.mk0 Int).makeState 0).saveState).current.countP
      (fun e => e.1 == 0) = 2 ∧
    ¬(∀ e ∈ (Trailer.runOps c2CexOps
        ((Trailer.mk0 Int).makeState 0).saveState).current, e.2 = 0) := by
  refine ⟨by decide, by decide, by decide⟩

theorem getq_of_mem {α : Type} {l : List α} {a : α} (h : a ∈ l) :
    ∃ n, l.get? n = some a := by
  induction l with
  | nil => simp at h
  | cons x xs ih =>
    rcases List.mem_cons.mp h with h1 | h1
    · exact ⟨0, by simp [h1]⟩
    · rcases ih h1 with ⟨n, hn⟩
      exact ⟨n + 1, by simpa using hn⟩

theorem get?_setScheduledFlag (cs : List CstrFlags) (c : Nat) (b : Bool) (i : Nat) :
    (setScheduledFlag cs c b).get? i
      = if i = c then (cs.get? c).map (fun k => { k with scheduled := b })
        else cs.get? i := by
  induction cs generalizing c i with
  | nil =>
    simp only [setScheduledFlag, List.get?]
    split <;> rfl
  | cons k ks ih =>
    cases c with
    | zero =>
      cases i with
      | zero => rfl
      | succ m => simp [setScheduledFlag, Nat.succ_ne_zero]
    | succ n =>
      cases i with
      | zero => simp [setScheduledFlag, (Nat.succ_ne_zero n).symm]
      | succ m =>
        simp only [setScheduledFlag, List.get?]
        rw [ih n m]
        by_cases hmn : m = n
        · simp [hmn]
        · simp [hmn, fun h => hmn (Nat.succ_injective h)]

theorem get?_setActiveFlag (cs : List CstrFlags) (c : Nat) (b : Bool) (i : Nat) :
    (setActiveFlag cs c b).get? i
      = if i = c then (cs.get? c).map (fun k => { k with active := b })
        else cs.get? i := by
  induction cs generalizing c i with
  | nil =>
    simp only [setActiveFlag, List.get?]
    split <;> rfl
  | cons k ks ih =>
    cases c with
    | zero =>
      cases i with
      | zero => rfl
      | succ m => simp [setActiveFlag, Nat.succ_ne_zero]
    | succ n =>
      cases i with
      | zero => simp [setActiveFlag, (Nat.succ_ne_zero n).symm]
      | succ m =>
        simp only [setActiveFlag, List.get?]
        rw [ih n m]
        by_cases hmn : m = n
        · simp [hmn]
        · simp [hmn, fun h => hmn (Nat.succ_injective h)]

theorem length_setScheduledFlag (cs : List CstrFlags) (c : Nat) (b : Bool) :
    (setScheduledFlag cs c b).length = cs.length := by
  induction cs generalizing c with
  | nil => rfl
  | cons k ks ih =>
    cases c with
    | zero => rfl
    | succ n => simpa [setScheduledFlag] using ih n

theorem length_setActiveFlag (cs : List CstrFlags) (c : Nat) (b : Bool) :
    (setActiveFlag cs c b).length = cs.length := by
  induction cs generalizing c with
  | nil => rfl
  | cons k ks ih =>
    cases c with
    | zero => rfl
    | succ n => simpa [setActiveFlag] using ih n

/-- Index form of the scheduled-iff-queued component of `QInv`. -/
theorem qinv_get? {s : SolverQ} (h : QInv s) {i : Nat} {k : CstrFlags}
    (hik : s.cstrs.get? i = some k) : (k.scheduled = true ↔ i ∈ s.queue) := by
  obtain ⟨hlt, hget⟩ := List.get?_eq_some.mp hik
  have := h.2.2 ⟨i, hlt⟩
  rwa [hget] at this

/-- `QInv` transfer along an equality of queues and a pointwise description
of the constraint list. -/
theorem qinv_of_parts {s : SolverQ}
    (hnd : s.queue.Nodup) (hlt : ∀ c ∈ s.queue, c < s.cstrs.length)
    (hiff : ∀ i k, s.cstrs.get? i = some k → (k.scheduled = true ↔ i ∈ s.queue)) :
    QInv s := by
  refine ⟨hnd, hlt, ?_⟩
  intro i
  exact hiff i (s.cstrs.get i) (List.get?_eq_get i.isLt)

theorem schedule_qinv {s : SolverQ} (h : QInv s) (c : Nat) :
    QInv (s.schedule c) := by
  unfold SolverQ.schedule
  cases hget : s.cstrs.get? c with
  | none => exact h
  | some k =>
    show QInv (if k.active = true ∧ k.scheduled = false then
      { cstrs := setScheduledFlag s.cstrs c true, queue := s.queue ++ [c] } else s)
    by_cases hcond : k.active = true ∧ k.scheduled = false
    · rw [if_pos hcond]
      have hcq : c ∉ s.queue := by
        intro hmem
        have := (qinv_get? h hget).mpr hmem
        rw [hcond.2] at this
        cases this
      refine qinv_of_parts ?_ ?_ ?_
      · show (s.queue ++ [c]).Nodup
        simp [List.nodup_append, hcq, h.1]
      · intro x hx
        show x < (setScheduledFlag s.cstrs c true).length
        rw [length_setScheduledFlag]
        rcases List.mem_append.mp hx with h1 | h1
        · exact h.2.1 x h1
        · have : x = c := by simpa using h1
          subst this
          exact (List.get?_eq_some.mp hget).choose
      · intro i ki hik
        show ki.scheduled = true ↔ i ∈ s.queue ++ [c]
        rw [get?_setScheduledFlag] at hik
        by_cases hic : i = c
        · subst hic
          rw [if_pos rfl, hget] at hik
          have : ki = { k with scheduled := true } := by
            simpa using hik.symm
          simp [this]
        · rw [if_neg hic] at hik
          rw [qinv_get? h hik]
          simp [hic]
    · rw [if_neg hcond]
      exact h

theorem applyEffect_qinv {s : SolverQ} (h : QInv s) (e : PropEffect) :
    QInv (s.applyEffect e) := by
  cases e with
  | sched c => exact schedule_qinv h c
  | setActive c b =>
    refine qinv_of_parts h.1 ?_ ?_
    · intro x hx
      show x < (setActiveFlag s.cstrs c b).length
      rw [length_setActiveFlag]
      exact h.2.1 x hx
    · intro i ki hik
      show ki.scheduled = true ↔ i ∈ s.queue
      have hik2 : (setActiveFlag s.cstrs c b).get? i = some ki := hik
      rw [get?_setActiveFlag] at hik2
      by_cases hic : i = c
      · subst hic
        rw [if_pos rfl] at hik2
        cases hk0 : s.cstrs.get? i with
        | none => rw [hk0] at hik2; cases hik2
        | some k0 =>
          rw [hk0] at hik2
          have : ki = { k0 with active := b } := by simpa using hik2.symm
          rw [this]
          show k0.scheduled = true ↔ i ∈ s.queue
          exact qinv_get? h hk0
      · rw [if_neg hic] at hik2
        exact qinv_get? h hik2

theorem applyEffects_qinv {s : SolverQ} (h : QInv s) (effs : List PropEffect) :
    QInv (s.applyEffects effs) := by
  induction effs generalizing s with
  | nil => exact h
  | cons e rest ih => exact ih (applyEffect_qinv h e)

theorem propagateStep_qinv {cstrs : List CstrFlags} {c : Nat} {rest : List Nat}
    (h : QInv { cstrs := cstrs, queue := c :: rest })
    (propImpl : Nat → SolverQ → List PropEffect × Bool) :
    QInv (exceptState (propagateStep propImpl { cstrs := cstrs, queue := rest } c)) := by
  have hnd : rest.Nodup := (List.nodup_cons.mp h.1).2
  have hcnr : c ∉ rest := (List.nodup_cons.mp h.1).1
  have h1 : QInv { cstrs := setScheduledFlag cstrs c false, queue := rest } := by
    refine qinv_of_parts hnd ?_ ?_
    · intro x hx
      show x < (setScheduledFlag cstrs c false).length
      rw [length_setScheduledFlag]
      exact h.2.1 x (List.mem_cons_of_mem _ hx)
    · intro i ki hik
      show ki.scheduled = true ↔ i ∈ rest
      rw [get?_setScheduledFlag] at hik
      by_cases hic : i = c
      · subst hic
        rw [if_pos rfl] at hik
        cases hk0 : cstrs.get? i with
        | none => rw [hk0] at hik; cases hik
        | some k0 =>
          rw [hk0] at hik
          have : ki = { k0 with scheduled := false } := by simpa using hik.symm
          rw [this]
          simpa using hcnr
      · rw [if_neg hic] at hik
        have := qinv_get? h hik
        simp only [List.mem_cons] at this
        rw [this]
        simp [hic]
  show QInv (exceptState (propagateBody propImpl
    { cstrs := setScheduledFlag cstrs c false, queue := rest } c))
  set s1 : SolverQ := { cstrs := setScheduledFlag cstrs c false, queue := rest } with hs1
  unfold propagateBody
  cases hget : s1.cstrs.get? c with
  | none => exact h1
  | some k =>
    show QInv (exceptState
      (if k.active = true then propagateRun propImpl s1 c else Except.ok s1))
    by_cases hact : k.active = true
    · rw [if_pos hact]
      unfold propagateRun
      have h2 := applyEffects_qinv h1 (propImpl c s1).1
      by_cases hr : (propImpl c s1).2 = true
      · rw [if_pos hr]; exact h2
      · rw [if_neg hr]; exact h2
    · rw [if_neg hact]
      exact h1

theorem all_unscheduled_of_empty {s : SolverQ} (h : QInv s) (hq : s.queue = []) :
    ∀ k ∈ s.cstrs, k.scheduled = false := by
  intro k hk
  rcases getq_of_mem hk with ⟨n, hn⟩
  have := qinv_get? h hn
  rw [hq] at this
  simp only [List.not_mem_nil, iff_false] at this
  exact Bool.not_eq_true _ |>.mp this

theorem drainFold (q : List Nat) :
    ∀ cs : List CstrFlags,
      (∀ i k, cs.get? i = some k → k.scheduled = true → i ∈ q) →
      ∀ k ∈ q.foldl (fun cs2 c => setScheduledFlag cs2 c false) cs,
        k.scheduled = false := by
  induction q with
  | nil =>
    intro cs hcs k hk
    rcases getq_of_mem hk with ⟨n, hn⟩
    by_cases hsch : k.scheduled = true
    · exact absurd (hcs n k hn hsch) (List.not_mem_nil _)
    · exact Bool.not_eq_true _ |>.mp hsch
  | cons c q2 ih =>
    intro cs hcs k hk
    refine ih (setScheduledFlag cs c false) ?_ k hk
    intro i ki hik hsch
    rw [get?_setScheduledFlag] at hik
    by_cases hic : i = c
    · subst hic
      cases hk0 : cs.get? i with
      | none => rw [if_pos rfl, hk0] at hik; cases hik
      | some k0 =>
        rw [if_pos rfl, hk0] at hik
        have : ki = { k0 with scheduled := false } := by simpa using hik.symm
        rw [this] at hsch
        cases hsch
    · rw [if_neg hic] at hik
      have := hcs i ki hik hsch
      simp only [List.mem_cons] at this
      rcases this with h1 | h1
      · exact absurd h1 hic
      · exact h1

theorem drain_result {s : SolverQ} (h : QInv s) :
    QInv (drainQueue s) ∧ (drainQueue s).queue = [] ∧
    ∀ k ∈ (drainQueue s).cstrs, k.scheduled = false := by
  have hall : ∀ k ∈ (drainQueue s).cstrs, k.scheduled = false := by
    refine drainFold s.queue s.cstrs ?_
    intro i k hik hsch
    exact (qinv_get? h hik).mp hsch
  refine ⟨?_, rfl, hall⟩
  refine qinv_of_parts (by simp [drainQueue]) (by simp [drainQueue]) ?_
  intro i k hik
  show k.scheduled = true ↔ i ∈ ([] : List Nat)
  have := hall k (mem_of_getq (by exact hik))
  simp [this]

theorem fixPointLoop_props (propImpl : Nat → SolverQ → List PropEffect × Bool) :
    ∀ (fuel : Nat) (s : SolverQ) (r : Except SolverQ SolverQ), QInv s →
      fixPointLoop propImpl fuel s = some r →
      QInv (exceptState r) ∧ (exceptState r).queue = [] ∧
      ∀ k ∈ (exceptState r).cstrs, k.scheduled = false := by
  intro fuel
  induction fuel with
  | zero => intro s r _ hr; cases hr
  | succ fuel ih =>
    intro s r h hr
    rw [fixPointLoop] at hr
    cases hq : s.queue with
    | nil =>
      rw [hq] at hr
      have : r = Except.ok s := by
        cases hr
        rfl
      subst this
      exact ⟨h, hq, all_unscheduled_of_empty h hq⟩
    | cons c rest =>
      rw [hq] at hr
      have hr2 : (match propagateStep propImpl { cstrs := s.cstrs, queue := rest } c with
          | Except.ok s2 => fixPointLoop propImpl fuel s2
          | Except.error s2 => some (Except.error (drainQueue s2))) = some r := hr
      have h2 : QInv { cstrs := s.cstrs, queue := c :: rest } := by
        rw [← hq]
        exact h
      have hstep := propagateStep_qinv h2 propImpl
      cases hps : propagateStep propImpl { cstrs := s.cstrs, queue := rest } c with
      | ok s2 =>
        rw [hps] at hr2
        have hs2 : QInv s2 := by
          rw [hps] at hstep
          exact hstep
        exact ih s2 r hs2 hr2
      | error s2 =>
        rw [hps] at hr2
        have hs2 : QInv s2 := by
          rw [hps] at hstep
          exact hstep
        have : r = Except.error (drainQueue s2) := by
          cases hr2
          rfl
        subst this
        exact drain_result hs2

/-- C3: `fix_point` discipline.  `schedule` enqueues only constraints that
are active and not already scheduled (and is a no-op otherwise), the
scheduled flag is true exactly while a constraint sits in the propagation
queue (`QInv` is preserved by scheduling and by every propagation step), and
whenever `fix_point` terminates, normally or by re-raising Inconsistency
(`Except.error`), the queue is empty and no constraint is marked
scheduled. -/
theorem c3_fix_point_drains_and_clears :
    (∀ (s : SolverQ) (c : Nat), QInv s → QInv (s.schedule c)) ∧
    (∀ (s : SolverQ) (c : Nat) (k : CstrFlags), s.cstrs.get? c = some k →
      ¬(k.active = true ∧ k.scheduled = false) → s.schedule c = s) ∧
    (∀ (propImpl : Nat → SolverQ → List PropEffect × Bool)
        (notify : SolverQ → List PropEffect × Bool) (fuel : Nat) (s : SolverQ)
        (r : Except SolverQ SolverQ), QInv s →
      fixPoint propImpl notify fuel s = some r →
      QInv (exceptState r) ∧ (exceptState r).queue = [] ∧
      ∀ k ∈ (exceptState r).cstrs, k.scheduled = false) := by
  refine ⟨fun s c h => schedule_qinv h c, ?_, ?_⟩
  · intro s c k hget hcond
    unfold SolverQ.schedule
    rw [hget]
    show (if k.active = true ∧ k.scheduled = false then
      { cstrs := setScheduledFlag s.cstrs c true, queue := s.queue ++ [c] } else s) = s
    rw [if_neg hcond]
  · intro propImpl notify fuel s r h hr
    have hr2 : (if (notify s).2 = true then
        some (Except.error (drainQueue (s.applyEffects (notify s).1)))
      else fixPointLoop propImpl fuel (s.applyEffects (notify s).1)) = some r := hr
    have h1 := applyEffects_qinv h (notify s).1
    by_cases hn : (notify s).2 = true
    · rw [if_pos hn] at hr2
      have : r = Except.error (drainQueue (s.applyEffects (notify s).1)) := by
        cases hr2
        rfl
      subst this
      exact drain_result h1
    · rw [if_neg hn] at hr2
      exact fixPointLoop_props propImpl fuel _ r h1 hr2

/-- Witness for C3: two scheduled constraints, the first raises
Inconsistency; the fix-point re-raises with the queue drained and both
scheduled flags cleared. -/
theorem c3_fix_point_witness :
    QInv (exceptState c3Result) ∧ (exceptState c3Result).queue = [] ∧
    ∀ k ∈ (exceptState c3Result).cstrs, k.scheduled = false :=
  c3_fix_point_drains_and_clears.2.2 c3PropImpl (fun _ => ([], false)) 5 c3Start
    c3Result (by unfold QInv; decide) rfl

/-- C5 evaluated on the code (code bug): `make_int_var` with only a set of
values raises `NotImplementedError` instead of returning a variable whose
domain is that set — `IntVarImpl.__init__` documents the values shape in its
docstring but its body rejects it.  The other two shapes work, incompatible
combinations and out-of-range or empty bounds are rejected as the claim
says. -/
theorem c5_make_int_var_values_shape :
    makeIntVar none none none (some [3, 5]) = Except.error InitError.notImplemented ∧
    makeIntVar (some 0) (some 5) none none = Except.ok (0, 5) ∧
    makeIntVar none none (some 10) none = Except.ok (0, 9) ∧
    makeIntVar (some 0) (some 5) (some 10) none = Except.error InitError.valueError ∧
    makeIntVar (some 0) (some 5) none (some [1]) = Except.error InitError.valueError ∧
    makeIntVar none none none none = Except.error InitError.valueError ∧
    makeIntVar (some 7) (some 3) none none = Except.error InitError.valueError ∧
    makeIntVar (some (-2147483648)) (some 5) none none
      = Except.error InitError.valueError ∧
    makeIntVar (some 0) (some 2147483647) none none
      = Except.error InitError.valueError := by
  exact ⟨rfl, rfl, rfl, rfl, rfl, rfl, rfl, rfl, rfl⟩

/-- C10: on every sparse set reachable by removal operations from a fresh
set, `min()` and `max()` raise `ValueError` exactly when the set is empty
and return a value on every non-empty set. -/
theorem c10_sparse_set_min_max_raise (n : Nat) (ofs : Int) (ops : List SetOp) :
    ((runSetOps ops (mkSparseSet n ofs)).isEmpty = true →
      (runSetOps ops (mkSparseSet n ofs)).minE = Except.error PyErr.valueError ∧
      (runSetOps ops (mkSparseSet n ofs)).maxE = Except.error PyErr.valueError) ∧
    ((runSetOps ops (mkSparseSet n ofs)).isEmpty = false →
      (runSetOps ops (mkSparseSet n ofs)).minE
        = Except.ok ((runSetOps ops (mkSparseSet n ofs)).minv
            + (runSetOps ops (mkSparseSet n ofs)).ofs) ∧
      (runSetOps ops (mkSparseSet n ofs)).maxE
        = Except.ok ((runSetOps ops (mkSparseSet n ofs)).maxv
            + (runSetOps ops (mkSparseSet n ofs)).ofs)) := by
  constructor
  · intro he
    constructor
    · simp [SSparseSet.minE, he]
    · simp [SSparseSet.maxE, he]
  · intro he
    constructor
    · simp [SSparseSet.minE, he]
    · simp [SSparseSet.maxE, he]

/-- Witness for C10: removing both elements of {0, 1} empties the set and
`min`/`max` raise; removing only 0 leaves min = max = 1. -/
theorem c10_sparse_set_witness :
    ((runSetOps [SetOp.remove 0, SetOp.remove 1] (mkSparseSet 2 0)).minE
        = Except.error PyErr.valueError ∧
      (runSetOps [SetOp.remove 0, SetOp.remove 1] (mkSparseSet 2 0)).maxE
        = Except.error PyErr.valueError) ∧
    ((runSetOps [SetOp.remove 0] (mkSparseSet 2 0)).minE
        = Except.ok ((runSetOps [SetOp.remove 0] (mkSparseSet 2 0)).minv
            + (runSetOps [SetOp.remove 0] (mkSparseSet 2 0)).ofs) ∧
      (runSetOps [SetOp.remove 0] (mkSparseSet 2 0)).maxE
        = Except.ok ((runSetOps [SetOp.remove 0] (mkSparseSet 2 0)).maxv
            + (runSetOps [SetOp.remove 0] (mkSparseSet 2 0)).ofs)) :=
  ⟨(c10_sparse_set_min_max_raise 2 0 [SetOp.remove 0, SetOp.remove 1]).1 (by decide),
   (c10_sparse_set_min_max_raise 2 0 [SetOp.remove 0]).2 (by decide)⟩

/-- C7 evaluated on the code (code bug): posting `IsLessOrEqual(b, x, 3)`
with `b` fixed true on `x` in [-4..7] enforces `x ≤ 3` but leaves the
constraint active (`set_active(False)` is never called, against the
\"should deactivate\" comments in the source and the claimed symmetry),
whereas `IsEqual.propagate` on the analogous input does deactivate
itself. -/
theorem c7_is_less_or_equal_keeps_active :
    c7PostResult.map (fun st =>
        (st.active, st.registered, st.x.size, exceptOk? st.x.maxE,
         st.x.contains 4))
      = some (true, false, 8, some 3, false) ∧
    c7IsEqualResult.map (fun st => (st.active, exceptOk? st.x.minE, st.x.size))
      = some (false, some 3, 1) := by
  exact ⟨rfl, rfl⟩

/-- C4 counterexample: constructing `Sum` over two variables whose maxima
sum to 4294967292 > 2³¹-1 succeeds, both with a variable right-hand side
and with a constant right-hand side, although the claim says such a
configuration is rejected at construction time; `sum_var` on the same terms
does reject. -/
theorem c4_sum_overflow_counterexample :
    sumInit c4Terms (some (0, 0)) none
      = Except.ok [(0, 2147483646), (0, 2147483646), (0, 0)] ∧
    sumInit c4Terms none (some 0)
      = Except.ok [(0, 2147483646), (0, 2147483646), (0, 0)] ∧
    (2147483646 + 2147483646 : Int) > MAX_VALUE ∧
    sumVarCheck c4Terms = none := by
  exact ⟨rfl, rfl, by decide, by decide⟩

/-- C4 (amended): the `Sum` constructor performs no bound-sum overflow
check.  With a variable right-hand side it always succeeds; with a constant
right-hand side it fails only on the `IntVarImpl` endpoint checks for the
constant `-v`; the bound-sum overflow check lives in the `sum_var` factory
alone, which rejects exactly the configurations whose bound sums leave the
32-bit signed range. -/
theorem c4_sum_no_constructor_overflow_check :
    (∀ (xs : List (Int × Int)) (yb : Int × Int),
      sumInit xs (some yb) none = Except.ok (xs ++ [opposite yb])) ∧
    (∀ (xs : List (Int × Int)) (vc : Int),
      -vc ≠ MIN_VALUE → -vc ≠ MAX_VALUE →
      sumInit xs none (some vc) = Except.ok (xs ++ [(-vc, -vc)])) ∧
    (∀ xs : List (Int × Int),
      sumVarCheck xs = none ↔
        ((xs.map (fun b => b.1)).foldl (· + ·) 0 < MIN_VALUE ∨
         (xs.map (fun b => b.2)).foldl (· + ·) 0 > MAX_VALUE)) := by
  refine ⟨fun xs yb => rfl, ?_, ?_⟩
  · intro xs vc h1 h2
    show (do
      let b ← intVarImplInit (some (-vc)) (some (-vc)) none none
      pure (xs ++ [b]) : Except InitError (List (Int × Int))) = _
    have hinit : intVarImplInit (some (-vc)) (some (-vc)) none none
        = Except.ok (-vc, -vc) := by
      unfold intVarImplInit
      rw [if_neg (by simp), if_neg (by simp)]
      rw [if_pos (by simp)]
      unfold intVarBoundsCheck
      rw [if_neg (by push_neg; exact ⟨h1, h2⟩), if_neg (by omega)]
      rfl
    rw [hinit]
    rfl
  · intro xs
    unfold sumVarCheck
    constructor
    · intro h
      by_cases hc : ((xs.map (fun b => b.1)).foldl (· + ·) 0 < MIN_VALUE ∨
          (xs.map (fun b => b.2)).foldl (· + ·) 0 > MAX_VALUE)
      · exact hc
      · rw [if_neg hc] at h
        cases h
    · intro h
      rw [if_pos h]

/-- Witness for C4 (amended) at concrete terms: the constant form succeeds
away from the endpoints, and `sum_var` accepts in-range sums. -/
theorem c4_sum_no_constructor_overflow_check_witness :
    sumInit [(1, 2), (3, 4)] none (some 5) = Except.ok [(1, 2), (3, 4), (-5, -5)] ∧
    (sumVarCheck [(1, 2), (3, 4)] = none ↔
      ((([(1, 2), (3, 4)] : List (Int × Int)).map (fun b => b.1)).foldl (· + ·) 0
          < MIN_VALUE ∨
       (([(1, 2), (3, 4)] : List (Int × Int)).map (fun b => b.2)).foldl (· + ·) 0
          > MAX_VALUE)) :=
  ⟨c4_sum_no_constructor_overflow_check.2.1 [(1, 2), (3, 4)] 5 (by decide) (by decide),
   c4_sum_no_constructor_overflow_check.2.2 [(1, 2), (3, 4)]⟩

/-- Validation of the binary64 model against IEEE-754 results (computed
independently): representative quotients and products, including the
round-back-to-integer effects the divisibility test of `_ceil_div` relies
on. -/
theorem float_model_validation :
    fdivD 1 3 = { m := 6004799503160661, k := 54 } ∧
    dyEqInt (fmulD (fdivD 1 3) 3) 1 = true ∧
    fdivD 7 3 = { m := 5254199565265579, k := 51 } ∧
    dyEqInt (fmulD (fdivD 7 3) 3) 7 = true ∧
    fdivD 1000000 7 = { m := 4908534052571429, k := 35 } ∧
    dyEqInt (fmulD (fdivD 1000000 7) 7) 1000000 = false := by
  refine ⟨by decide, by decide, by decide, by decide, by decide, by decide⟩

/-- C6 evaluated on the code (code bug): for the multiplication view with
factor a = 3, `remove_below(7)` calls `x.remove_below(2)` although
⌈7/3⌉ = 3, and `remove_below(1)` calls `x.remove_below(0)` although
⌈1/3⌉ = 1; symmetrically `remove_above(-7)` calls `x.remove_above(-2)`
although ⌊-7/3⌋ = -3.  The float product `fl(fl(v/3)·3)` rounds back to `v`
exactly, so the divisibility test in `_ceil_div`/`_floor_div` misfires and
the helpers truncate toward zero instead of rounding toward ±∞.  On inputs
where the product does not round back (e.g. v = 1000000, a = 7) the helpers
agree with the exact ceiling and floor. -/
theorem c6_view_mul_division_not_exact :
    viewMulRemoveBelowArg 3 7 = 2 ∧ isCeilOfDiv 3 7 3 ∧ ¬isCeilOfDiv 2 7 3 ∧
    viewMulRemoveBelowArg 3 1 = 0 ∧ isCeilOfDiv 1 1 3 ∧ ¬isCeilOfDiv 0 1 3 ∧
    viewMulRemoveAboveArg 3 (-7) = -2 ∧ isFloorOfDiv (-3) (-7) 3 ∧
    ¬isFloorOfDiv (-2) (-7) 3 ∧
    viewMulRemoveBelowArg 7 1000000 = 142858 ∧ isCeilOfDiv 142858 1000000 7 ∧
    viewMulRemoveAboveArg 7 1000000 = 142857 ∧ isFloorOfDiv 142857 1000000 7 := by
  refine ⟨by decide, ?_, ?_, by decide, ?_, ?_, by decide, ?_, ?_, by decide, ?_,
    by decide, ?_⟩ <;> first
    | (unfold isCeilOfDiv; decide)
    | (unfold isFloorOfDiv; decide)

/-- C9: whatever the model, branching, limit and subject-to closure do, and
whether or not the nested optimize runs and finds solutions,
`optimize_subject_to` returns a statistics object with zero nodes, zero
failures, zero solutions and `completed = false`: the nested statistics are
bound to a closure-local variable and never published. -/
theorem c9_optimize_subject_to_returns_empty_stats {σ : Type}
    (branching : σ → Except Unit (List (σ → Except Unit σ)))
    (limit : Option (SearchStatistics → Bool)) (subjectTo : σ → Except Unit σ)
    (fuel : Nat) (s0 : σ) (r : SearchStatistics)
    (h : dfsOptimizeSubjectTo branching limit subjectTo fuel s0 = some r) :
    r.nNodes = 0 ∧ r.nFailures = 0 ∧ r.nSolutions = 0 ∧ r.completed = false := by
  unfold dfsOptimizeSubjectTo at h
  split at h
  · cases h
    exact ⟨rfl, rfl, rfl, rfl⟩
  · split at h
    · cases h
    · cases h
      exact ⟨rfl, rfl, rfl, rfl⟩

/-- C8: DFS on three independent 0/1 variables with the fix(0)/fix(1)
branching and no limit terminates with 8 solutions, 0 failures,
14 = 8 + 4 + 2 nodes, and completed = true. -/
theorem c8_dfs_three_binary_vars :
    dfsSolve binBranching none 64 [none, none, none]
      = some (Except.ok
          { nFailures := 0, nNodes := 14, nSolutions := 8, completed := true }) := by
  rfl

/-- Witness for C9 at the concrete model of C8: the nested optimize would
report 14 nodes and 8 solutions, yet `optimize_subject_to` returns the
all-zero statistics. -/
theorem c9_optimize_subject_to_witness :
    (dfsOptimizeSubjectTo binBranching none (fun s => Except.ok s) 64
        [none, none, none] = some SearchStatistics.init) ∧
    (SearchStatistics.init.nNodes = 0 ∧ SearchStatistics.init.nFailures = 0 ∧
      SearchStatistics.init.nSolutions = 0 ∧ SearchStatistics.init.completed = false) ∧
    dfsOptimize binBranching none 64 [none, none, none]
      = some (Except.ok
          { nFailures := 0, nNodes := 14, nSolutions := 8, completed := true }) :=
  ⟨rfl,
   c9_optimize_subject_to_returns_empty_stats binBranching none (fun s => Except.ok s)
     64 [none, none, none] SearchStatistics.init rfl,
   rfl⟩

end MiniCPVerify
